import Mathlib

/-!
Verification of the presolve engine in
`src/models/utils_models/presolve_class.py` (class `PresolveComillas`).

The LP state is shallowly embedded with dense row-major rational matrices
(`List (List ℚ)`), Python lists as Lean lists, and the two deletion
primitives of the source distinguished: `np.delete` (set-like, duplicate
indices removed once) and the `for index in sorted(idxs, reverse=True):
del l[index]` loop (duplicates delete twice).  Helpers that live outside
`src/` (`find_corresponding_negative_rows_with_indices`,
`normalize_features`, `matrix_sparsification`, `linear_dependency`) are
modelled from the spec, as marked on each definition.
-/

namespace Presolve

attribute [local semireducible] Rat.mul Rat.add Rat.inv Rat.sub

abbrev Row := List ℚ
abbrev Mat := List Row

/-- Descending insertion used to embed Python `sorted(idxs, reverse=True)`. -/
def insertDesc (x : Nat) : List Nat → List Nat
  | [] => [x]
  | y :: ys => if y ≤ x then x :: y :: ys else y :: insertDesc x ys

/-- Embeds Python `sorted(idxs, reverse=True)`. -/
def sortDesc (l : List Nat) : List Nat := l.foldr insertDesc []

/-- Embeds the Python idiom `for index in sorted(idxs, reverse=True): del l[index]`:
duplicated indices delete twice. -/
def delAtAll (l : List α) (idxs : List Nat) : List α :=
  (sortDesc idxs).foldl (fun acc i => acc.eraseIdx i) l

/-- Core of `npDelete`, scanning positions from `k`. -/
def npDeleteFrom (idxs : List Nat) : Nat → List α → List α
  | _, [] => []
  | k, x :: xs =>
    if idxs.contains k then npDeleteFrom idxs (k + 1) xs
    else x :: npDeleteFrom idxs (k + 1) xs

/-- Embeds `np.delete(arr, idxs, axis)`: removes the listed positions,
ignoring duplicates (numpy deletes each position once). -/
def npDelete (l : List α) (idxs : List Nat) : List α := npDeleteFrom idxs 0 l

def shapeRows (A : Mat) : Nat := A.length

def rowAt (A : Mat) (i : Nat) : Row := A.getD i []

def shapeCols (A : Mat) : Nat := (rowAt A 0).length

def entry (A : Mat) (i j : Nat) : ℚ := (rowAt A i).getD j 0

def colAt (A : Mat) (j : Nat) : List ℚ := A.map (fun r => r.getD j 0)

def rowNnz (r : Row) : Nat := r.countP (fun x => decide (x ≠ 0))

def nnzMat (A : Mat) : Nat := (A.map rowNnz).sum

def isZeroRow (r : Row) : Bool := r.all (fun x => decide (x = 0))

def negRow (r : Row) : Row := r.map (fun x => -x)

/-- Embeds `np.delete(A, idxs, axis=1)`. -/
def deleteCols (A : Mat) (idxs : List Nat) : Mat := A.map (fun r => npDelete r idxs)

/-- Embeds `np.nonzero(row)[0][0]` (first nonzero position, 0 when none). -/
def firstNonzeroIdx (r : Row) : Nat :=
  (((List.range r.length).find? (fun j => decide (r.getD j 0 ≠ 0)))).getD 0

/-- Embeds `np.nonzero(row)[0][-1]` (last nonzero position, 0 when none). -/
def lastNonzeroIdx (r : Row) : Nat :=
  ((((List.range r.length).filter (fun j => decide (r.getD j 0 ≠ 0)))).getLast?).getD 0

/-- Constraint sense enumeration; the engine never reads the stored values. -/
inductive Sense where
  | le
  | ge
  | eqs
deriving DecidableEq

/-- Change journal: one field per key the source writes into
`change_dictionary`; the per-variable nested dicts of the singleton/kton
rules become association lists in write order. -/
structure Journal where
  zeroRowsDeletedRows : List Nat
  zeroColsDeletedColumns : List Nat
  zeroColsSolution : List (String × ℚ)
  singletonEqEntries : List (String × Nat × List Nat)
  singletonEqSolutions : List (String × ℚ)
  ktonEntries : List (String × Nat × List Nat)
  ktonSolutions : List (String × Row × ℚ × List String)
  singletonIneqDeletedVars : List Nat
  singletonIneqDeletedRows : List Nat
  dualSingletonDeletedVars : List Nat
  dualSingletonDeletedRows : List Nat
  redundantColsDeletedVars : List Nat
  redundantColsDeletedRows : List Nat
  impliedBoundsDeletedRows : List Nat
  redundantRowsDeletedRows : List Nat
deriving DecidableEq

def emptyJournal : Journal :=
  ⟨[], [], [], [], [], [], [], [], [], [], [], [], [], [], []⟩

/-- The mutable engine state: the LP fields of `PresolveComillas` plus the
change journal, the operation table and a count of emitted warnings. -/
structure PState where
  A : Mat
  b : List ℚ
  c : List ℚ
  co : ℚ
  lb : List ℚ
  ub : List ℚ
  of_sense : String
  cons_senses : List Sense
  variable_names : List String
  original_row_index : List Nat
  original_column_index : List Nat
  journal : Journal
  operation_table : List (String × Nat × Nat × Nat)
  warnings : Nat
deriving DecidableEq

/-- The matrix tuple `get_model_matrices` extracts from the model. -/
structure MatrixInput where
  A : Mat
  b : List ℚ
  c : List ℚ
  co : ℚ
  lb : List ℚ
  ub : List ℚ
  of_sense : String
  cons_senses : List Sense
  variable_names : List String
deriving DecidableEq

/-- Embeds `load_model_matrices`: loads the matrices, generates the original
row/column index ranges and prepends the `"Initial"` operation-table entry. -/
def load_model_matrices (mi : MatrixInput) : PState :=
  { A := mi.A, b := mi.b, c := mi.c, co := mi.co, lb := mi.lb, ub := mi.ub,
    of_sense := mi.of_sense, cons_senses := mi.cons_senses,
    variable_names := mi.variable_names,
    original_row_index := List.range (shapeRows mi.A),
    original_column_index := List.range (shapeCols mi.A),
    journal := emptyJournal,
    operation_table :=
      [("Initial", mi.cons_senses.length, mi.variable_names.length, nnzMat mi.A)],
    warnings := 0 }

/-- Modelled from the spec: `find_corresponding_negative_rows_with_indices`
lives outside `src/` (utils_functions).  Per spec §4.3 it flags row `i` iff
some `j ≠ i` has `A[j,:] = −A[i,:]` and `b[j] = −b[i]`, the mate being any
such `j`; we return the first. -/
def negative_counterpart (A : Mat) (b : List ℚ) (i : Nat) : Option Nat :=
  (List.range A.length).find? (fun j =>
    decide (j ≠ i) && decide (rowAt A j = negRow (rowAt A i)) &&
      decide (b.getD j 0 = -(b.getD i 0)))

/-- Predicate of the deletion branch in `eliminate_zero_rows` (src lines
184–187): a zero row whose right-hand side is nonpositive. -/
def zeroRowDeletable (A : Mat) (b : List ℚ) (i : Nat) : Bool :=
  isZeroRow (rowAt A i) && decide (b.getD i 0 ≤ 0)

/-- Embeds `eliminate_zero_rows` (src lines 169–206): zero rows with
`b[i] ≤ 0` are deleted; zero rows with `b[i] > 0` only emit an
infeasibility warning and are kept. -/
def eliminate_zero_rows (s : PState) : PState :=
  let m := shapeRows s.A
  let to_delete := (List.range m).filter (fun i => zeroRowDeletable s.A s.b i)
  let to_delete_original := to_delete.map (fun i => s.original_row_index.getD i 0)
  let warns := ((List.range m).filter (fun i =>
      isZeroRow (rowAt s.A i) && decide (0 < s.b.getD i 0))).length
  let A1 := npDelete s.A to_delete
  let b1 := delAtAll s.b to_delete
  let senses1 := delAtAll s.cons_senses to_delete
  let origr1 := delAtAll s.original_row_index to_delete
  { s with
    A := A1
    b := b1
    cons_senses := senses1
    original_row_index := origr1
    journal := { s.journal with zeroRowsDeletedRows := to_delete_original }
    warnings := s.warnings + warns
    operation_table := s.operation_table ++
      [("Eliminate Zero Rows", senses1.length, s.variable_names.length, nnzMat A1)] }

/-- Embeds `eliminate_zero_columns` (src lines 208–257): empty columns with
`c[j] ≥ 0` are deleted and journalled with solution value 0; empty columns
with `c[j] < 0` emit an unboundedness warning. -/
def eliminate_zero_columns (s : PState) : PState :=
  let n := shapeCols s.A
  let zero_cols := (List.range n).filter (fun j => (colAt s.A j).all (fun x => decide (x = 0)))
  let to_delete := zero_cols.filter (fun j => decide (0 ≤ s.c.getD j 0))
  let to_delete_original := to_delete.map (fun j => s.original_column_index.getD j 0)
  let solution := to_delete.map (fun j => (s.variable_names.getD j "", (0 : ℚ)))
  let warns := (zero_cols.filter (fun j => decide (s.c.getD j 0 < 0))).length
  let A1 := deleteCols s.A to_delete
  let c1 := delAtAll s.c to_delete
  let names1 := delAtAll s.variable_names to_delete
  let lb1 := delAtAll s.lb to_delete
  let ub1 := delAtAll s.ub to_delete
  let origc1 := delAtAll s.original_column_index to_delete
  { s with
    A := A1
    c := c1
    variable_names := names1
    lb := lb1
    ub := ub1
    original_column_index := origc1
    journal := { s.journal with
                 zeroColsDeletedColumns := to_delete_original
                 zeroColsSolution := solution }
    warnings := s.warnings + warns
    operation_table := s.operation_table ++
      [("Eliminate Zero Columns", s.cons_senses.length, names1.length, nnzMat A1)] }

/-- First row with exactly one nonzero and a negative counterpart
(src lines 276–287). -/
def findSingletonEq (A : Mat) (b : List ℚ) : Option Nat :=
  (List.range A.length).find? (fun i =>
    (rowNnz (rowAt A i) == 1) && (negative_counterpart A b i).isSome)

/-- One `x_k ≥ 0` processing pass of `eliminate_singleton_equalities`
(src lines 294–344): fix `x_k = b[i]/A[i,k]`, update `b` and `co`, delete
rows `i` and its mate and column `k`, journal the change. -/
def singletonEqProcess (s : PState) (i mate : Nat) : PState :=
  let k_index := firstNonzeroIdx (rowAt s.A i)
  let x_k := s.b.getD i 0 / entry s.A i k_index
  let index_rows_to_delete := [i, mate]
  let rows_orig := [s.original_row_index.getD i 0, s.original_row_index.getD mate 0]
  let col_orig := s.original_column_index.getD k_index 0
  let var_to_del := s.variable_names.getD k_index ""
  let b1 := List.zipWith (fun bi ai => bi - ai * x_k) s.b (colAt s.A k_index)
  let b2 := delAtAll b1 index_rows_to_delete
  let senses1 := delAtAll s.cons_senses index_rows_to_delete
  let origr1 := delAtAll s.original_row_index index_rows_to_delete
  let co1 := if s.c.getD k_index 0 ≠ 0 then s.co - s.c.getD k_index 0 * x_k else s.co
  let A1 := deleteCols (npDelete s.A index_rows_to_delete) [k_index]
  let c1 := s.c.eraseIdx k_index
  let lb1 := s.lb.eraseIdx k_index
  let ub1 := s.ub.eraseIdx k_index
  let names1 := s.variable_names.eraseIdx k_index
  let origc1 := s.original_column_index.eraseIdx k_index
  { s with
    A := A1
    b := b2
    c := c1
    co := co1
    lb := lb1
    ub := ub1
    cons_senses := senses1
    variable_names := names1
    original_row_index := origr1
    original_column_index := origc1
    journal := { s.journal with
      singletonEqEntries := s.journal.singletonEqEntries ++ [(var_to_del, col_orig, rows_orig)]
      singletonEqSolutions := s.journal.singletonEqSolutions ++ [(var_to_del, x_k)] } }

/-- The `while found_singleton` loop of `eliminate_singleton_equalities`
(src lines 272–348), with explicit fuel; `none` means the fuel ran out with
the loop still demanding another iteration. -/
def singletonEqLoop : Nat → PState → Option PState
  | 0, s =>
    match findSingletonEq s.A s.b with
    | none => some s
    | some _ => none
  | fuel + 1, s =>
    match findSingletonEq s.A s.b with
    | none => some s
    | some i =>
      let k_index := firstNonzeroIdx (rowAt s.A i)
      let x_k := s.b.getD i 0 / entry s.A i k_index
      if 0 ≤ x_k then
        singletonEqLoop fuel (singletonEqProcess s i ((negative_counterpart s.A s.b i).getD 0))
      else
        singletonEqLoop fuel { s with warnings := s.warnings + 1 }

/-- Embeds `eliminate_singleton_equalities` (src lines 259–352).  In the
`x_k < 0` branch the source only warns while `found_singleton` stays true,
so the loop re-finds the same row forever; the fuel-indexed embedding
returns `none` on every fuel in that situation. -/
def eliminate_singleton_equalities (fuel : Nat) (s : PState) : Option PState :=
  (singletonEqLoop fuel s).map (fun s1 =>
    { s1 with operation_table := s1.operation_table ++
        [("Eliminate Singleton Equalities", s1.cons_senses.length,
          s1.variable_names.length, nnzMat s1.A)] })

/-- First row with exactly `k` nonzeros and a negative counterpart
(src lines 369–383). -/
def findKton (k : Nat) (A : Mat) (b : List ℚ) : Option Nat :=
  (List.range A.length).find? (fun i =>
    (rowNnz (rowAt A i) == k) && (negative_counterpart A b i).isSome)

/-- One processing pass of `eliminate_kton_equalities` (src lines 386–450):
pivot on the row's last nonzero column, scale, eliminate the pivot column
from the other rows and the objective, delete the pivot column, negate the
surviving row and delete the mate. -/
def ktonProcess (s : PState) (i mate : Nat) : PState :=
  let kton_row := rowAt s.A i
  let rows_orig := [s.original_row_index.getD i 0, s.original_row_index.getD mate 0]
  let kton_column := lastNonzeroIdx kton_row
  let col_orig := s.original_column_index.getD kton_column 0
  let var_to_del := s.variable_names.getD kton_column ""
  let sol_entry := (var_to_del, kton_row, s.b.getD i 0, s.variable_names)
  let piv := entry s.A i kton_column
  let b1 := s.b.set i (s.b.getD i 0 / piv)
  let A1 := s.A.set i (kton_row.map (fun x => x / piv))
  let bi := b1.getD i 0
  let rowi := rowAt A1 i
  let b2 := (List.range b1.length).map (fun r =>
    if r = i then b1.getD r 0 else b1.getD r 0 - entry A1 r kton_column * bi)
  let A2 := (List.range A1.length).map (fun r =>
    if r = i then rowAt A1 r
    else List.zipWith (fun a p => a - entry A1 r kton_column * p) (rowAt A1 r) rowi)
  let co1 := s.co + s.c.getD kton_column 0 * bi
  let c1 := List.zipWith (fun cj aj => cj - s.c.getD kton_column 0 * aj) s.c rowi
  let A3 := deleteCols A2 [kton_column]
  let c2 := c1.eraseIdx kton_column
  let lb1 := s.lb.eraseIdx kton_column
  let ub1 := s.ub.eraseIdx kton_column
  let names1 := s.variable_names.eraseIdx kton_column
  let origc1 := s.original_column_index.eraseIdx kton_column
  let A4 := A3.set i (negRow (rowAt A3 i))
  let b3 := b2.set i (-(b2.getD i 0))
  let A5 := npDelete A4 [mate]
  let b4 := b3.eraseIdx mate
  let senses1 := s.cons_senses.eraseIdx mate
  let origr1 := s.original_row_index.eraseIdx mate
  { s with
    A := A5
    b := b4
    c := c2
    co := co1
    lb := lb1
    ub := ub1
    cons_senses := senses1
    variable_names := names1
    original_row_index := origr1
    original_column_index := origc1
    journal := { s.journal with
      ktonEntries := s.journal.ktonEntries ++ [(var_to_del, col_orig, rows_orig)]
      ktonSolutions := s.journal.ktonSolutions ++ [sol_entry] } }

/-- The `while found_kton` loop of `eliminate_kton_equalities`
(src lines 365–450), with explicit fuel. -/
def ktonLoop (k : Nat) : Nat → PState → Option PState
  | 0, s =>
    match findKton k s.A s.b with
    | none => some s
    | some _ => none
  | fuel + 1, s =>
    match findKton k s.A s.b with
    | none => some s
    | some i => ktonLoop k fuel (ktonProcess s i ((negative_counterpart s.A s.b i).getD 0))

/-- Embeds `eliminate_kton_equalities` (src lines 354–454). -/
def eliminate_kton_equalities (k fuel : Nat) (s : PState) : Option PState :=
  (ktonLoop k fuel s).map (fun s1 =>
    { s1 with operation_table := s1.operation_table ++
        [("Eliminate Kton Equalities", s1.cons_senses.length,
          s1.variable_names.length, nnzMat s1.A)] })

/-- Row `i` qualifies for `eliminate_singleton_inequalities` (src lines
462–472): exactly one nonzero and no negative counterpart. -/
def singletonIneqValid (A : Mat) (b : List ℚ) (i : Nat) : Bool :=
  (rowNnz (rowAt A i) == 1) && !(negative_counterpart A b i).isSome

/-- Embeds `eliminate_singleton_inequalities` (src lines 456–537).  The four
sign cases of the single scan (src lines 497–509) are rendered as filters
over the row range, preserving the append order of each Python list; the
`(A_ik > 0, b_i = 0)` branch appends to `to_delete_constraint` only, not to
`to_delete_constraint_original`. -/
def eliminate_singleton_inequalities (s : PState) : PState :=
  let m := shapeRows s.A
  let aik := fun i => entry s.A i (firstNonzeroIdx (rowAt s.A i))
  let bi := fun i => s.b.getD i 0
  let to_delete_constraint := (List.range m).filter (fun i =>
    singletonIneqValid s.A s.b i &&
      (decide (0 < aik i ∧ bi i < 0) || decide (0 < aik i ∧ bi i = 0) ||
        decide (aik i < 0 ∧ bi i = 0)))
  let to_delete_constraint_original := ((List.range m).filter (fun i =>
    singletonIneqValid s.A s.b i &&
      (decide (0 < aik i ∧ bi i < 0) || decide (aik i < 0 ∧ bi i = 0)))).map
    (fun i => s.original_row_index.getD i 0)
  let var_rows := (List.range m).filter (fun i =>
    singletonIneqValid s.A s.b i && decide (aik i < 0 ∧ bi i = 0))
  let to_delete_variable := var_rows.map (fun i => firstNonzeroIdx (rowAt s.A i))
  let to_delete_variable_original :=
    to_delete_variable.map (fun j => s.original_column_index.getD j 0)
  let warns := ((List.range m).filter (fun i =>
    singletonIneqValid s.A s.b i && decide (aik i < 0 ∧ 0 < bi i))).length
  let A1 := deleteCols (npDelete s.A to_delete_constraint) to_delete_variable
  let b1 := delAtAll s.b to_delete_constraint
  let senses1 := delAtAll s.cons_senses to_delete_constraint
  let origr1 := delAtAll s.original_row_index to_delete_constraint
  let c1 := delAtAll s.c to_delete_variable
  let lb1 := delAtAll s.lb to_delete_variable
  let ub1 := delAtAll s.ub to_delete_variable
  let names1 := delAtAll s.variable_names to_delete_variable
  let origc1 := delAtAll s.original_column_index to_delete_variable
  { s with
    A := A1
    b := b1
    c := c1
    lb := lb1
    ub := ub1
    cons_senses := senses1
    variable_names := names1
    original_row_index := origr1
    original_column_index := origc1
    journal := { s.journal with
      singletonIneqDeletedVars := to_delete_variable_original
      singletonIneqDeletedRows := to_delete_constraint_original }
    warnings := s.warnings + warns
    operation_table := s.operation_table ++
      [("Eliminate Singleton Inequalities", senses1.length, names1.length, nnzMat A1)] }

def colNnz (A : Mat) (j : Nat) : Nat := (colAt A j).countP (fun x => decide (x ≠ 0))

/-- Embeds `np.nonzero(col)[0][0]` over a column. -/
def firstNonzeroRowIdx (A : Mat) (j : Nat) : Nat :=
  ((List.range (shapeRows A)).find? (fun i => decide (entry A i j ≠ 0))).getD 0

/-- Embeds `eliminate_dual_singleton_inequalities` (src lines 539–616):
column-wise counterpart of the singleton inequality rule, with the four sign
cases of src lines 574–587 rendered as filters in column order. -/
def eliminate_dual_singleton_inequalities (s : PState) : PState :=
  let n := shapeCols s.A
  let valid := fun j => colNnz s.A j == 1
  let arj := fun j => entry s.A (firstNonzeroRowIdx s.A j) j
  let cj := fun j => s.c.getD j 0
  let to_delete_variable := (List.range n).filter (fun j =>
    valid j &&
      (decide (arj j < 0 ∧ 0 < cj j) || decide (0 < arj j ∧ cj j = 0) ||
        decide (arj j < 0 ∧ cj j = 0)))
  let to_delete_variable_original :=
    to_delete_variable.map (fun j => s.original_column_index.getD j 0)
  let to_delete_constraint := ((List.range n).filter (fun j =>
    valid j && decide (0 < arj j ∧ cj j = 0))).map (fun j => firstNonzeroRowIdx s.A j)
  let to_delete_constraint_original :=
    to_delete_constraint.map (fun i => s.original_row_index.getD i 0)
  let warns := ((List.range n).filter (fun j =>
    valid j && decide (0 < arj j ∧ cj j < 0))).length
  let A1 := deleteCols (npDelete s.A to_delete_constraint) to_delete_variable
  let b1 := delAtAll s.b to_delete_constraint
  let senses1 := delAtAll s.cons_senses to_delete_constraint
  let origr1 := delAtAll s.original_row_index to_delete_constraint
  let c1 := delAtAll s.c to_delete_variable
  let names1 := delAtAll s.variable_names to_delete_variable
  let origc1 := delAtAll s.original_column_index to_delete_variable
  let lb1 := npDelete s.lb to_delete_variable
  let ub1 := npDelete s.ub to_delete_variable
  { s with
    A := A1
    b := b1
    c := c1
    lb := lb1
    ub := ub1
    cons_senses := senses1
    variable_names := names1
    original_row_index := origr1
    original_column_index := origc1
    journal := { s.journal with
      dualSingletonDeletedVars := to_delete_variable_original
      dualSingletonDeletedRows := to_delete_constraint_original }
    warnings := s.warnings + warns
    operation_table := s.operation_table ++
      [("Eliminate Dual Singleton Inequalities", senses1.length, names1.length, nnzMat A1)] }

/-- Combined qualifying condition of `eliminate_redundant_columns`
(src lines 624–634): `b[i] = 0`, a negative counterpart exists, and the row
is sign-uniform. -/
def redundantColCondition (A : Mat) (b : List ℚ) (i : Nat) : Bool :=
  decide (b.getD i 0 = 0) && (negative_counterpart A b i).isSome &&
    ((rowAt A i).all (fun x => decide (0 ≤ x)) || (rowAt A i).all (fun x => decide (x ≤ 0)))

/-- Embeds `eliminate_redundant_columns` (src lines 618–685): each
qualifying row is deleted together with every column carrying one of its
nonzeros, deduplicating appends as the source's membership checks do. -/
def eliminate_redundant_columns (s : PState) : PState :=
  let m := shapeRows s.A
  let step := fun (acc : List Nat × List Nat × List Nat × List Nat) (i : Nat) =>
    if redundantColCondition s.A s.b i then
      let tc := if acc.1.contains i then acc.1 else acc.1 ++ [i]
      let tco := if acc.1.contains i then acc.2.1
        else acc.2.1 ++ [s.original_row_index.getD i 0]
      let nz := (List.range (rowAt s.A i).length).filter
        (fun j => decide ((rowAt s.A i).getD j 0 ≠ 0))
      let tvp := nz.foldl (fun (p : List Nat × List Nat) jdx =>
        if p.1.contains jdx then p
        else (p.1 ++ [jdx], p.2 ++ [s.original_column_index.getD jdx 0]))
        (acc.2.2.1, acc.2.2.2)
      (tc, tco, tvp.1, tvp.2)
    else acc
  let res := (List.range m).foldl step ([], [], [], [])
  let to_delete_constraint := res.1
  let to_delete_constraint_original := res.2.1
  let to_delete_variable := res.2.2.1
  let to_delete_variable_original := res.2.2.2
  let A1 := deleteCols (npDelete s.A to_delete_constraint) to_delete_variable
  let b1 := delAtAll s.b to_delete_constraint
  let senses1 := delAtAll s.cons_senses to_delete_constraint
  let origr1 := delAtAll s.original_row_index to_delete_constraint
  let lb1 := npDelete s.lb to_delete_variable
  let ub1 := npDelete s.ub to_delete_variable
  let c1 := delAtAll s.c to_delete_variable
  let names1 := delAtAll s.variable_names to_delete_variable
  let origc1 := delAtAll s.original_column_index to_delete_variable
  { s with
    A := A1
    b := b1
    c := c1
    lb := lb1
    ub := ub1
    cons_senses := senses1
    variable_names := names1
    original_row_index := origr1
    original_column_index := origc1
    journal := { s.journal with
      redundantColsDeletedVars := to_delete_variable_original
      redundantColsDeletedRows := to_delete_constraint_original }
    warnings := s.warnings
    operation_table := s.operation_table ++
      [("Eliminate Redundant Columns", senses1.length, names1.length, nnzMat A1)] }

/-- Minimal row activity INF of `get_row_activities` (src lines 143–161):
positive coefficients meet lower bounds, negative ones upper bounds. -/
def rowINF (row lb ub : List ℚ) (n : Nat) : ℚ :=
  ((List.range n).map (fun j =>
    let a := row.getD j 0
    if a = 0 then 0 else if 0 < a then a * lb.getD j 0 else a * ub.getD j 0)).sum

/-- Maximal row activity SUP of `get_row_activities` (src lines 143–161). -/
def rowSUP (row lb ub : List ℚ) (n : Nat) : ℚ :=
  ((List.range n).map (fun j =>
    let a := row.getD j 0
    if a = 0 then 0 else if 0 < a then a * ub.getD j 0 else a * lb.getD j 0)).sum

/-- Embeds `eliminate_implied_bounds` (src lines 687–734) with its default
`feasibility_tolerance = 1e-6` and `infinity = 1e30`.  The two deletion
conditions are two separate `if`s in the source, so a row meeting both is
appended twice to `to_delete_constraint`; `np.delete` removes it once while
the `del` loops over `b`, `cons_senses` and `original_row_index` remove two
entries. -/
def eliminate_implied_bounds (s : PState) : PState :=
  let tol : ℚ := 1 / 1000000
  let inf : ℚ := 10 ^ 30
  let m := shapeRows s.A
  let n := shapeCols s.A
  let to_delete := (List.range m).foldl (fun acc i =>
    let acc1 := if inf ≤ s.b.getD i 0 then acc ++ [i] else acc
    if s.b.getD i 0 + tol < rowINF (rowAt s.A i) s.lb s.ub n then acc1 ++ [i] else acc1) []
  let to_delete_original := to_delete.map (fun i => s.original_row_index.getD i 0)
  let warns := ((List.range m).filter (fun i =>
    decide (rowSUP (rowAt s.A i) s.lb s.ub n < s.b.getD i 0 + tol))).length
  let A1 := npDelete s.A to_delete
  let b1 := delAtAll s.b to_delete
  let senses1 := delAtAll s.cons_senses to_delete
  let origr1 := delAtAll s.original_row_index to_delete
  { s with
    A := A1
    b := b1
    cons_senses := senses1
    original_row_index := origr1
    journal := { s.journal with impliedBoundsDeletedRows := to_delete_original }
    warnings := s.warnings + warns
    operation_table := s.operation_table ++
      [("Eliminate Implied Bounds", senses1.length, s.variable_names.length, nnzMat A1)] }

/-- Signature of `linear_dependency(A, b)`: per-row dependency lists and
per-row flags. -/
abbrev Detector := Mat → List ℚ → List (List Nat) × List Bool

/-- Embeds `eliminate_redundant_rows` (src lines 736–779).  Modelled from
the spec: `linear_dependency` lives outside `src/`, so the detector is a
parameter matching its call on `(A, b)`; the rule deletes each dependent
index that is not the row's negative-counterpart mate and not already
marked. -/
def eliminate_redundant_rows (dep : Detector) (s : PState) : PState :=
  let dr := (dep s.A s.b).1
  let hd := (dep s.A s.b).2
  let m := shapeRows s.A
  let step := fun (acc : List Nat × List Nat) (i : Nat) =>
    if acc.1.contains i then acc
    else if hd.getD i false then
      let mate := (negative_counterpart s.A s.b i).getD 0
      (dr.getD i []).foldl (fun (a : List Nat × List Nat) j =>
        if j ≠ mate ∧ ¬(a.1.contains j = true) then
          (a.1 ++ [j], a.2 ++ [s.original_row_index.getD j 0])
        else a) acc
    else acc
  let res := (List.range m).foldl step ([], [])
  let to_delete_constraint := res.1
  let to_delete_constraint_original := res.2
  let A1 := npDelete s.A to_delete_constraint
  let b1 := delAtAll s.b to_delete_constraint
  let senses1 := delAtAll s.cons_senses to_delete_constraint
  let origr1 := delAtAll s.original_row_index to_delete_constraint
  { s with
    A := A1
    b := b1
    cons_senses := senses1
    original_row_index := origr1
    journal := { s.journal with redundantRowsDeletedRows := to_delete_constraint_original }
    warnings := s.warnings
    operation_table := s.operation_table ++
      [("Eliminate Redundant Rows", senses1.length, s.variable_names.length, nnzMat A1)] }

/-- Modelled from the spec: `normalize_features` lives outside `src/`; per
§4.13 step 1 each row is divided by its maximum absolute value.  Only the
first returned component is consumed in the source. -/
def normalize_features (A : Mat) : Mat :=
  A.map (fun r =>
    let sc := r.foldl (fun mx x => max mx |x|) 0
    if sc = 0 then r else r.map (fun x => x / sc))

/-- Modelled from the spec: `matrix_sparsification` lives outside `src/`;
per §4.13 steps 2–3 it zeroes every entry of the original matrix whose
normalized magnitude is below the threshold. -/
def matrix_sparsification (threshold : ℚ) (Anorm A : Mat) : Mat :=
  List.zipWith (fun nr ar =>
    List.zipWith (fun na a => if |na| < threshold then 0 else a) nr ar) Anorm A

/-- Embeds `reduction_small_coefficients` (src lines 781–789) with its
default threshold `5*10e-2 = 0.5`. -/
def reduction_small_coefficients (s : PState) : PState :=
  let threshold : ℚ := 5 * (1 / 10)
  let A1 := matrix_sparsification threshold (normalize_features s.A) s.A
  { s with
    A := A1
    operation_table := s.operation_table ++
      [("reduction Small Coefficients", s.cons_senses.length,
        s.variable_names.length, nnzMat A1)] }

/-- The constructor flags of `PresolveComillas` plus the shared `k`. -/
structure Config where
  perform_eliminate_zero_rows : Bool
  perform_eliminate_zero_columns : Bool
  perform_eliminate_singleton_equalities : Bool
  perform_eliminate_kton_equalities : Bool
  k : Nat
  perform_eliminate_singleton_inequalities : Bool
  perform_eliminate_dual_singleton_inequalities : Bool
  perform_eliminate_redundant_columns : Bool
  perform_eliminate_implied_bounds : Bool
  perform_eliminate_redundant_rows : Bool
  perform_reduction_small_coefficients : Bool
deriving DecidableEq

/-- Embeds `orchestrator_presolve_operations` (src lines 86–124): loads the
matrices, then applies the enabled rules in the source's order. -/
def orchestrator_presolve_operations (dep : Detector) (cfg : Config) (fuel : Nat)
    (mi : MatrixInput) : Option PState :=
  let s0 := load_model_matrices mi
  let s1 := if cfg.perform_reduction_small_coefficients then reduction_small_coefficients s0 else s0
  let s2 := if cfg.perform_eliminate_implied_bounds then eliminate_implied_bounds s1 else s1
  let s3 := if cfg.perform_eliminate_redundant_rows then eliminate_redundant_rows dep s2 else s2
  (if cfg.perform_eliminate_kton_equalities then eliminate_kton_equalities cfg.k fuel s3
   else some s3).bind (fun s4 =>
  (if cfg.perform_eliminate_singleton_equalities then eliminate_singleton_equalities fuel s4
   else some s4).bind (fun s5 =>
  let s6 := if cfg.perform_eliminate_singleton_inequalities then eliminate_singleton_inequalities s5 else s5
  let s7 := if cfg.perform_eliminate_dual_singleton_inequalities then eliminate_dual_singleton_inequalities s6 else s6
  let s8 := if cfg.perform_eliminate_redundant_columns then eliminate_redundant_columns s7 else s7
  let s9 := if cfg.perform_eliminate_zero_rows then eliminate_zero_rows s8 else s8
  let s10 := if cfg.perform_eliminate_zero_columns then eliminate_zero_columns s9 else s9
  some s10))

/-- The tuple returned by the orchestrator (src lines 123–124). -/
def presolveOutput (s : PState) :=
  (s.A, s.b, s.c, s.lb, s.ub, s.of_sense, s.cons_senses, s.co, s.variable_names,
    s.journal, s.operation_table)

/-- Embeds the orchestrator's full contract: run and return the tuple. -/
def run_presolve (dep : Detector) (cfg : Config) (fuel : Nat) (mi : MatrixInput) :=
  (orchestrator_presolve_operations dep cfg fuel mi).map presolveOutput

/-- Follows the spec's words (§4.1): the fixed rule order as an explicit
list of (enabled-flag, rule) pairs, items 1–10 in the spec's numbering. -/
def specRuleSequence (dep : Detector) (cfg : Config) (fuel : Nat) :
    List (Bool × (PState → Option PState)) :=
  [ (cfg.perform_reduction_small_coefficients, fun s => some (reduction_small_coefficients s)),
    (cfg.perform_eliminate_implied_bounds, fun s => some (eliminate_implied_bounds s)),
    (cfg.perform_eliminate_redundant_rows, fun s => some (eliminate_redundant_rows dep s)),
    (cfg.perform_eliminate_kton_equalities, eliminate_kton_equalities cfg.k fuel),
    (cfg.perform_eliminate_singleton_equalities, eliminate_singleton_equalities fuel),
    (cfg.perform_eliminate_singleton_inequalities, fun s => some (eliminate_singleton_inequalities s)),
    (cfg.perform_eliminate_dual_singleton_inequalities, fun s => some (eliminate_dual_singleton_inequalities s)),
    (cfg.perform_eliminate_redundant_columns, fun s => some (eliminate_redundant_columns s)),
    (cfg.perform_eliminate_zero_rows, fun s => some (eliminate_zero_rows s)),
    (cfg.perform_eliminate_zero_columns, fun s => some (eliminate_zero_columns s)) ]

/-- Follows the spec's words (§4.1): apply exactly the enabled rules in the
fixed order and return the tuple
`(A, b, c, lb, ub, of_sense, cons_senses, co, variable_names, change_journal,
operation_table)`. -/
def orchestratorSpec (dep : Detector) (cfg : Config) (fuel : Nat) (mi : MatrixInput) :=
  (((specRuleSequence dep cfg fuel).foldl
    (fun acc p => acc.bind (fun s => if p.1 then p.2 s else some s))
    (some (load_model_matrices mi))).map (fun s =>
      (s.A, s.b, s.c, s.lb, s.ub, s.of_sense, s.cons_senses, s.co, s.variable_names,
        s.journal, s.operation_table)))

/-- Follows the spec's words (§4.7 steps 1–8) for one pass of the k-ton
elimination on a found row `i` with mate row `mate`: pivot `p` is the last
nonzero column of row `i`; row `i` and `b i` are scaled by `1/A[i,p]`;
every other row `r` gets `b[r] − A[r,p]·b[i]` and `A[r,:] − A[r,p]·A[i,:]`;
the objective gets `co + c[p]·b[i]` and `c − c[p]·A[i,:]`; column `p` is
deleted everywhere; row `i` is negated together with `b[i]`; the mate row
is deleted; the journal records the pivot's original row, rhs and name
context from the moment of elimination. -/
def ktonSpecStep (s : PState) (i mate : Nat) : PState :=
  let p := lastNonzeroIdx (rowAt s.A i)
  let scaled_row := (rowAt s.A i).map (fun x => x / entry s.A i p)
  let scaled_b := s.b.getD i 0 / entry s.A i p
  let Ascaled := s.A.set i scaled_row
  let bscaled := s.b.set i scaled_b
  let belim := (List.range bscaled.length).map (fun r =>
    if r = i then bscaled.getD r 0
    else bscaled.getD r 0 - entry Ascaled r p * (bscaled.getD i 0))
  let Aelim := (List.range Ascaled.length).map (fun r =>
    if r = i then rowAt Ascaled r
    else List.zipWith (fun a q => a - entry Ascaled r p * q) (rowAt Ascaled r) (rowAt Ascaled i))
  let co1 := s.co + s.c.getD p 0 * (bscaled.getD i 0)
  let c1 := (List.zipWith (fun cj aj => cj - s.c.getD p 0 * aj) s.c (rowAt Ascaled i)).eraseIdx p
  let Acol := deleteCols Aelim [p]
  let Aneg := Acol.set i (negRow (rowAt Acol i))
  let bneg := belim.set i (-(belim.getD i 0))
  { s with
    A := npDelete Aneg [mate]
    b := bneg.eraseIdx mate
    c := c1
    co := co1
    lb := s.lb.eraseIdx p
    ub := s.ub.eraseIdx p
    cons_senses := s.cons_senses.eraseIdx mate
    variable_names := s.variable_names.eraseIdx p
    original_row_index := s.original_row_index.eraseIdx mate
    original_column_index := s.original_column_index.eraseIdx p
    journal := { s.journal with
      ktonEntries := s.journal.ktonEntries ++
        [(s.variable_names.getD p "",
          s.original_column_index.getD p 0,
          [s.original_row_index.getD i 0, s.original_row_index.getD mate 0])]
      ktonSolutions := s.journal.ktonSolutions ++
        [(s.variable_names.getD p "", rowAt s.A i, s.b.getD i 0, s.variable_names)] } }

theorem npDeleteFrom_sublist (idxs : List Nat) (k : Nat) (l : List α) :
    (npDeleteFrom idxs k l).Sublist l := by
  induction l generalizing k with
  | nil => simp [npDeleteFrom]
  | cons x xs ih =>
    by_cases h : idxs.contains k
    · simp only [npDeleteFrom, h, if_pos]
      exact (ih (k + 1)).cons x
    · simp only [npDeleteFrom, h, Bool.false_eq_true, if_neg, not_false_iff]
      exact (ih (k + 1)).cons₂ x

theorem npDelete_sublist (l : List α) (idxs : List Nat) : (npDelete l idxs).Sublist l :=
  npDeleteFrom_sublist idxs 0 l

theorem length_npDelete_le (l : List α) (idxs : List Nat) :
    (npDelete l idxs).length ≤ l.length :=
  (npDelete_sublist l idxs).length_le

theorem npDelete_nil_idxs (l : List α) : npDelete l [] = l := by
  show npDeleteFrom [] 0 l = l
  suffices h : ∀ k, npDeleteFrom ([] : List Nat) k l = l by exact h 0
  induction l with
  | nil => intro k; simp [npDeleteFrom]
  | cons x xs ih => intro k; simp [npDeleteFrom, ih]

theorem length_eraseIdx_le (l : List α) (i : Nat) : (l.eraseIdx i).length ≤ l.length := by
  rw [List.length_eraseIdx]
  split
  · omega
  · exact Nat.le_refl _

theorem length_delAtAll_le (l : List α) (idxs : List Nat) :
    (delAtAll l idxs).length ≤ l.length := by
  show ((sortDesc idxs).foldl (fun acc i => acc.eraseIdx i) l).length ≤ l.length
  induction sortDesc idxs generalizing l with
  | nil => exact Nat.le_refl _
  | cons d ds ih =>
    exact Nat.le_trans (ih (l.eraseIdx d)) (length_eraseIdx_le l d)

theorem length_eraseIdx_congr {l₁ : List α} {l₂ : List β} (h : l₁.length = l₂.length)
    (i : Nat) : (List.eraseIdx l₁ i).length = (List.eraseIdx l₂ i).length := by
  rw [List.length_eraseIdx, List.length_eraseIdx, h]

theorem length_delAtAll_congr {l₁ : List α} {l₂ : List β} (h : l₁.length = l₂.length)
    (idxs : List Nat) : (delAtAll l₁ idxs).length = (delAtAll l₂ idxs).length := by
  show ((sortDesc idxs).foldl _ l₁).length = ((sortDesc idxs).foldl _ l₂).length
  induction sortDesc idxs generalizing l₁ l₂ with
  | nil => exact h
  | cons d ds ih => exact ih (length_eraseIdx_congr h d)

theorem length_npDeleteFrom_congr {l₁ : List α} {l₂ : List β} (h : l₁.length = l₂.length)
    (idxs : List Nat) (k : Nat) :
    (npDeleteFrom idxs k l₁).length = (npDeleteFrom idxs k l₂).length := by
  induction l₁ generalizing l₂ k with
  | nil =>
    have h2 : l₂ = [] := List.length_eq_zero.mp h.symm
    subst h2; rfl
  | cons x xs ih =>
    match l₂, h with
    | y :: ys, h =>
      have h2 : xs.length = ys.length := by simpa using h
      by_cases hc : idxs.contains k
      · simp only [npDeleteFrom, hc, if_pos]
        exact ih h2 (k + 1)
      · simp only [npDeleteFrom, hc, Bool.false_eq_true, if_neg, not_false_iff,
          List.length_cons]
        exact congrArg Nat.succ (ih h2 (k + 1))

theorem getD_mem {l : List α} {j : Nat} (h : j < l.length) (d : α) : l.getD j d ∈ l := by
  rw [List.getD_eq_getElem _ _ h]
  exact List.getElem_mem h

theorem mem_npDeleteFrom_iff (idxs : List Nat) (l : List α) (k : Nat) (y : α) (d : α) :
    y ∈ npDeleteFrom idxs k l ↔
      ∃ j, j < l.length ∧ idxs.contains (k + j) = false ∧ l.getD j d = y := by
  induction l generalizing k with
  | nil => simp [npDeleteFrom]
  | cons x xs ih =>
    by_cases hc : idxs.contains k
    · simp only [npDeleteFrom, hc, if_pos, ih (k + 1)]
      constructor
      · rintro ⟨j, hj, hcj, hy⟩
        exact ⟨j + 1, by simpa using hj, by simpa [Nat.add_comm, Nat.add_left_comm] using hcj,
          by simpa using hy⟩
      · rintro ⟨j, hj, hcj, hy⟩
        match j, hj, hcj, hy with
        | 0, hj, hcj, hy => exact absurd (by simpa using hc) (by simpa using hcj)
        | j + 1, hj, hcj, hy =>
          exact ⟨j, by simpa using hj, by simpa [Nat.add_comm, Nat.add_left_comm] using hcj,
            by simpa using hy⟩
    · simp only [npDeleteFrom, hc, Bool.false_eq_true, if_neg, not_false_iff, List.mem_cons,
        ih (k + 1)]
      constructor
      · rintro (rfl | ⟨j, hj, hcj, hy⟩)
        · exact ⟨0, by simp, by simpa using hc, rfl⟩
        · exact ⟨j + 1, by simpa using hj, by simpa [Nat.add_comm, Nat.add_left_comm] using hcj,
            by simpa using hy⟩
      · rintro ⟨j, hj, hcj, hy⟩
        match j, hj, hcj, hy with
        | 0, hj, hcj, hy => exact Or.inl hy.symm
        | j + 1, hj, hcj, hy =>
          exact Or.inr ⟨j, by simpa using hj, by simpa [Nat.add_comm, Nat.add_left_comm] using hcj,
            by simpa using hy⟩

theorem mem_npDelete_iff (idxs : List Nat) (l : List α) (y : α) (d : α) :
    y ∈ npDelete l idxs ↔
      ∃ j, j < l.length ∧ idxs.contains j = false ∧ l.getD j d = y := by
  simpa using mem_npDeleteFrom_iff idxs l 0 y d

theorem insertDesc_perm (x : Nat) (l : List Nat) : List.Perm (insertDesc x l) (x :: l) := by
  induction l with
  | nil => exact List.Perm.refl _
  | cons y ys ih =>
    by_cases h : y ≤ x
    · simp only [insertDesc, h, if_pos]
      exact List.Perm.refl _
    · simp only [insertDesc, h, if_neg, not_false_iff]
      exact (ih.cons y).trans (List.Perm.swap x y ys)

theorem sortDesc_perm (l : List Nat) : List.Perm (sortDesc l) l := by
  induction l with
  | nil => exact List.Perm.refl _
  | cons a l ih =>
    exact (insertDesc_perm a (sortDesc l)).trans (ih.cons a)

theorem insertDesc_pairwise {x : Nat} {l : List Nat}
    (h : l.Pairwise (fun a b => b ≤ a)) :
    (insertDesc x l).Pairwise (fun a b => b ≤ a) := by
  induction l with
  | nil => simp [insertDesc]
  | cons y ys ih =>
    rcases List.pairwise_cons.mp h with ⟨hy, hys⟩
    by_cases hle : y ≤ x
    · simp only [insertDesc, hle, if_pos]
      refine List.pairwise_cons.mpr ⟨?_, h⟩
      intro z hz
      rcases List.mem_cons.mp hz with rfl | hz
      · exact hle
      · exact Nat.le_trans (hy z hz) hle
    · simp only [insertDesc, hle, if_neg, not_false_iff]
      refine List.pairwise_cons.mpr ⟨?_, ih hys⟩
      intro z hz
      rcases List.mem_cons.mp ((insertDesc_perm x ys).mem_iff.mp hz) with rfl | hz1
      · exact Nat.le_of_lt (Nat.lt_of_not_le hle)
      · exact hy z hz1

theorem sortDesc_pairwise (l : List Nat) :
    (sortDesc l).Pairwise (fun a b => b ≤ a) := by
  induction l with
  | nil => simp [sortDesc]
  | cons a l ih => exact insertDesc_pairwise ih

theorem npDeleteFrom_congr_ge {idxs₁ idxs₂ : List Nat} (l : List α) (k : Nat)
    (h : ∀ i, k ≤ i → idxs₁.contains i = idxs₂.contains i) :
    npDeleteFrom idxs₁ k l = npDeleteFrom idxs₂ k l := by
  induction l generalizing k with
  | nil => rfl
  | cons x xs ih =>
    have hk : idxs₁.contains k = idxs₂.contains k := h k (Nat.le_refl k)
    have htail := ih (k + 1) (fun i hi => h i (Nat.le_of_succ_le hi))
    by_cases hc : idxs₂.contains k
    · simp only [npDeleteFrom, hk, hc, if_pos, htail]
    · simp only [npDeleteFrom, hk, hc, Bool.false_eq_true, if_neg, not_false_iff, htail]

theorem npDeleteFrom_all_lt {idxs : List Nat} {k : Nat} (l : List α)
    (h : ∀ r ∈ idxs, r < k) : npDeleteFrom idxs k l = l := by
  induction l generalizing k with
  | nil => rfl
  | cons x xs ih =>
    have hc : idxs.contains k = false := by
      by_cases h1 : k ∈ idxs
      · exact absurd (h k h1) (by omega)
      · simp [h1]
    simp only [npDeleteFrom, hc, Bool.false_eq_true, if_neg, not_false_iff]
    rw [ih (fun r hr => Nat.lt_succ_of_lt (h r hr))]

theorem npDeleteFrom_eraseIdx (l : List α) (k d : Nat) (idxs : List Nat)
    (h : ∀ r ∈ idxs, r < k + d) :
    npDeleteFrom idxs k (l.eraseIdx d) = npDeleteFrom ((k + d) :: idxs) k l := by
  induction l generalizing k d with
  | nil => simp [npDeleteFrom, List.eraseIdx]
  | cons x xs ih =>
    match d with
    | 0 =>
      have hc1 : (((k + 0) :: idxs).contains k) = true := by simp
      simp only [List.eraseIdx, npDeleteFrom, hc1, if_pos]
      rw [npDeleteFrom_all_lt xs (fun r hr => by have := h r hr; omega)]
      rw [npDeleteFrom_all_lt xs ?_]
      intro r hr
      rcases List.mem_cons.mp hr with rfl | hr1
      · omega
      · have := h r hr1; omega
    | d + 1 =>
      have hkd : k + (d + 1) ≠ k := by omega
      have harr : k + 1 + d = k + (d + 1) := by omega
      have hstep := ih (k + 1) d (fun r hr => by have := h r hr; omega)
      rw [harr] at hstep
      by_cases hc : idxs.contains k
      · have hmemk : k ∈ idxs := by simpa using hc
        have hc2 : (((k + (d + 1)) :: idxs).contains k) = true := by simp [hmemk]
        simp only [List.eraseIdx, npDeleteFrom, hc, hc2, if_pos]
        exact hstep
      · have hmemk : k ∉ idxs := by simpa using hc
        have hc2 : (((k + (d + 1)) :: idxs).contains k) = false := by
          simp [hmemk, Ne.symm hkd]
        simp only [List.eraseIdx, npDeleteFrom, hc, hc2, Bool.false_eq_true, if_neg,
          not_false_iff]
        rw [hstep]

theorem foldl_eraseIdx_eq_npDelete {ds : List Nat} (l : List α)
    (h : ds.Pairwise (fun a b => b < a)) :
    ds.foldl (fun acc i => acc.eraseIdx i) l = npDelete l ds := by
  induction ds generalizing l with
  | nil => simp [npDelete_nil_idxs]
  | cons d rest ih =>
    rcases List.pairwise_cons.mp h with ⟨hd, hrest⟩
    show rest.foldl _ (l.eraseIdx d) = npDelete l (d :: rest)
    rw [ih (l.eraseIdx d) hrest]
    show npDeleteFrom rest 0 (l.eraseIdx d) = npDeleteFrom (d :: rest) 0 l
    have := npDeleteFrom_eraseIdx l 0 d rest (fun r hr => by simpa using hd r hr)
    simpa using this

theorem delAtAll_eq_npDelete {idxs : List Nat} (l : List α)
    (h : idxs.Pairwise (· < ·)) : delAtAll l idxs = npDelete l idxs := by
  have hnd : (sortDesc idxs).Nodup := ((sortDesc_perm idxs).nodup_iff).mpr h.nodup
  have hge := sortDesc_pairwise idxs
  have hgt : (sortDesc idxs).Pairwise (fun a b => b < a) := by
    have hand := List.Pairwise.and hge hnd
    exact hand.imp (fun hab => Nat.lt_of_le_of_ne hab.1 (Ne.symm hab.2))
  show (sortDesc idxs).foldl (fun acc i => acc.eraseIdx i) l = npDelete l idxs
  rw [foldl_eraseIdx_eq_npDelete l hgt]
  refine npDeleteFrom_congr_ge l 0 ?_
  intro i _
  have hmem := (sortDesc_perm idxs).mem_iff (a := i)
  by_cases h1 : i ∈ idxs
  · simp [h1, hmem.mpr h1]
  · have h2 : i ∉ sortDesc idxs := fun hx => h1 (hmem.mp hx)
    simp [h1, h2]

theorem pairwise_lt_filter_range (m : Nat) (p : Nat → Bool) :
    ((List.range m).filter p).Pairwise (· < ·) :=
  (List.pairwise_lt_range m).filter p

theorem npDeleteFrom_zip {a : List α} {b : List β} (idxs : List Nat) (k : Nat)
    (h : a.length = b.length) :
    npDeleteFrom idxs k (a.zip b) = (npDeleteFrom idxs k a).zip (npDeleteFrom idxs k b) := by
  induction a generalizing b k with
  | nil =>
    have hb : b = [] := List.length_eq_zero.mp h.symm
    subst hb; rfl
  | cons x xs ih =>
    match b, h with
    | y :: ys, h =>
      have h2 : xs.length = ys.length := by simpa using h
      by_cases hc : idxs.contains k
      · simp only [List.zip_cons_cons, npDeleteFrom, hc, if_pos]
        exact ih _ h2
      · simp only [List.zip_cons_cons, npDeleteFrom, hc, Bool.false_eq_true, if_neg,
          not_false_iff, List.zip_cons_cons]
        exact congrArg (List.cons (x, y)) (ih (k + 1) h2)

theorem zip_getD {a : List α} {b : List β} {j : Nat} (ha : j < a.length)
    (hb : j < b.length) (d₁ : α) (d₂ : β) :
    (a.zip b).getD j (d₁, d₂) = (a.getD j d₁, b.getD j d₂) := by
  have hj : j < (a.zip b).length := by
    rw [List.length_zip]; omega
  rw [List.getD_eq_getElem _ _ hj, List.getD_eq_getElem _ _ ha, List.getD_eq_getElem _ _ hb]
  exact List.getElem_zip

theorem sum_le_of_sublist {l₁ l₂ : List Nat} (h : l₁.Sublist l₂) : l₁.sum ≤ l₂.sum := by
  induction h with
  | slnil => exact Nat.le_refl _
  | cons a _ ih => simpa using Nat.le_trans ih (Nat.le_add_left _ _)
  | cons₂ a _ ih => simpa using ih

theorem rowNnz_npDelete_le (r : Row) (idxs : List Nat) :
    rowNnz (npDelete r idxs) ≤ rowNnz r :=
  (npDelete_sublist r idxs).countP_le _

theorem nnzMat_npDelete_le (A : Mat) (idxs : List Nat) :
    nnzMat (npDelete A idxs) ≤ nnzMat A :=
  sum_le_of_sublist ((npDelete_sublist A idxs).map rowNnz)

theorem nnzMat_deleteCols_le (A : Mat) (idxs : List Nat) :
    nnzMat (deleteCols A idxs) ≤ nnzMat A := by
  show ((A.map (fun r => npDelete r idxs)).map rowNnz).sum ≤ (A.map rowNnz).sum
  rw [List.map_map]
  exact List.sum_le_sum (fun r _ => rowNnz_npDelete_le r idxs)

theorem rowNnz_zipWith_threshold_le (P : ℚ → Prop) [DecidablePred P] (nr r : Row) :
    rowNnz (List.zipWith (fun na a => if P na then 0 else a) nr r) ≤ rowNnz r := by
  induction nr generalizing r with
  | nil => simp [rowNnz]
  | cons x xs ih =>
    match r with
    | [] => simp [rowNnz]
    | y :: ys =>
      by_cases hf : P x
      · rw [List.zipWith_cons_cons, if_pos hf]
        show rowNnz (0 :: _) ≤ rowNnz (y :: ys)
        simp only [rowNnz, List.countP_cons]
        have := ih ys
        simp only [rowNnz] at this
        have hz : (decide ((0 : ℚ) ≠ 0)) = false := by simp
        rw [hz]
        simp only [Bool.false_eq_true, if_false]
        omega
      · rw [List.zipWith_cons_cons, if_neg hf]
        simp only [rowNnz, List.countP_cons]
        have := ih ys
        simp only [rowNnz] at this
        omega

theorem nnzMat_sparsification_le (threshold : ℚ) (A : Mat) :
    nnzMat (matrix_sparsification threshold (normalize_features A) A) ≤ nnzMat A := by
  unfold matrix_sparsification normalize_features
  induction A with
  | nil => simp [nnzMat]
  | cons r rest ih =>
    simp only [List.map_cons, List.zipWith_cons_cons, nnzMat, List.sum_cons]
    have h1 := rowNnz_zipWith_threshold_le (fun na => |na| < threshold)
      (if r.foldl (fun mx x => max mx |x|) 0 = 0 then r
        else r.map (fun x => x / r.foldl (fun mx x => max mx |x|) 0)) r
    have h2 := ih
    simp only [nnzMat] at h2
    omega

/-- Relation between successive operation-table entries: `rows` and `cols`
never increase, and `nnz` does not increase unless the entry is the k-ton
rule's (where elimination fill-in can raise it). -/
def entryStep (e1 e2 : String × Nat × Nat × Nat) : Prop :=
  e2.2.1 ≤ e1.2.1 ∧ e2.2.2.1 ≤ e1.2.2.1 ∧
    (e2.1 ≠ "Eliminate Kton Equalities" → e2.2.2.2 ≤ e1.2.2.2)

/-- Invariant carried through the orchestrator: the operation table is an
`entryStep` chain and its last entry records the current dimensions. -/
def tableOk (s : PState) : Prop :=
  List.Chain' entryStep s.operation_table ∧
    ∃ lbl, s.operation_table.getLast? =
      some (lbl, s.cons_senses.length, s.variable_names.length, nnzMat s.A)

theorem tableOk_append {s s' : PState} {l : String}
    (hT : s'.operation_table = s.operation_table ++
      [(l, s'.cons_senses.length, s'.variable_names.length, nnzMat s'.A)])
    (hrows : s'.cons_senses.length ≤ s.cons_senses.length)
    (hcols : s'.variable_names.length ≤ s.variable_names.length)
    (hnnz : l ≠ "Eliminate Kton Equalities" → nnzMat s'.A ≤ nnzMat s.A)
    (h : tableOk s) : tableOk s' := by
  obtain ⟨hch, lbl0, hlast⟩ := h
  constructor
  · rw [hT, List.chain'_append]
    refine ⟨hch, List.chain'_singleton _, ?_⟩
    intro x hx y hy
    rw [hlast] at hx
    simp only [Option.mem_def, Option.some.injEq] at hx
    simp only [List.head?_cons, Option.mem_def, Option.some.injEq] at hy
    subst hx
    subst hy
    exact ⟨hrows, hcols, hnnz⟩
  · exact ⟨l, by rw [hT, List.getLast?_concat]⟩

theorem tableOk_eliminate_zero_rows {s : PState} (h : tableOk s) :
    tableOk (eliminate_zero_rows s) := by
  refine tableOk_append (s := s) (l := "Eliminate Zero Rows") rfl
    (length_delAtAll_le _ _) (Nat.le_refl _) (fun _ => nnzMat_npDelete_le _ _) h

theorem tableOk_eliminate_zero_columns {s : PState} (h : tableOk s) :
    tableOk (eliminate_zero_columns s) := by
  refine tableOk_append (s := s) (l := "Eliminate Zero Columns") rfl
    (Nat.le_refl _) (length_delAtAll_le _ _) (fun _ => nnzMat_deleteCols_le _ _) h

theorem tableOk_eliminate_singleton_inequalities {s : PState} (h : tableOk s) :
    tableOk (eliminate_singleton_inequalities s) := by
  refine tableOk_append (s := s) (l := "Eliminate Singleton Inequalities") rfl
    (length_delAtAll_le _ _) (length_delAtAll_le _ _)
    (fun _ => Nat.le_trans (nnzMat_deleteCols_le _ _) (nnzMat_npDelete_le _ _)) h

theorem tableOk_eliminate_dual_singleton_inequalities {s : PState} (h : tableOk s) :
    tableOk (eliminate_dual_singleton_inequalities s) := by
  refine tableOk_append (s := s) (l := "Eliminate Dual Singleton Inequalities") rfl
    (length_delAtAll_le _ _) (length_delAtAll_le _ _)
    (fun _ => Nat.le_trans (nnzMat_deleteCols_le _ _) (nnzMat_npDelete_le _ _)) h

theorem tableOk_eliminate_redundant_columns {s : PState} (h : tableOk s) :
    tableOk (eliminate_redundant_columns s) := by
  refine tableOk_append (s := s) (l := "Eliminate Redundant Columns") rfl
    (length_delAtAll_le _ _) (length_delAtAll_le _ _)
    (fun _ => Nat.le_trans (nnzMat_deleteCols_le _ _) (nnzMat_npDelete_le _ _)) h

theorem tableOk_eliminate_implied_bounds {s : PState} (h : tableOk s) :
    tableOk (eliminate_implied_bounds s) := by
  refine tableOk_append (s := s) (l := "Eliminate Implied Bounds") rfl
    (length_delAtAll_le _ _) (Nat.le_refl _) (fun _ => nnzMat_npDelete_le _ _) h

theorem tableOk_eliminate_redundant_rows {dep : Detector} {s : PState} (h : tableOk s) :
    tableOk (eliminate_redundant_rows dep s) := by
  refine tableOk_append (s := s) (l := "Eliminate Redundant Rows") rfl
    (length_delAtAll_le _ _) (Nat.le_refl _) (fun _ => nnzMat_npDelete_le _ _) h

theorem tableOk_reduction_small_coefficients {s : PState} (h : tableOk s) :
    tableOk (reduction_small_coefficients s) := by
  refine tableOk_append (s := s) (l := "reduction Small Coefficients") rfl
    (Nat.le_refl _) (Nat.le_refl _) (fun _ => nnzMat_sparsification_le _ _) h

theorem singletonEqProcess_dims (s : PState) (i mate : Nat) :
    (singletonEqProcess s i mate).cons_senses.length ≤ s.cons_senses.length ∧
    (singletonEqProcess s i mate).variable_names.length ≤ s.variable_names.length ∧
    nnzMat (singletonEqProcess s i mate).A ≤ nnzMat s.A ∧
    (singletonEqProcess s i mate).operation_table = s.operation_table :=
  ⟨length_delAtAll_le _ _, length_eraseIdx_le _ _,
    Nat.le_trans (nnzMat_deleteCols_le _ _) (nnzMat_npDelete_le _ _), rfl⟩

theorem singletonEqLoop_dims {n : Nat} {s s' : PState}
    (h : singletonEqLoop n s = some s') :
    s'.cons_senses.length ≤ s.cons_senses.length ∧
    s'.variable_names.length ≤ s.variable_names.length ∧
    nnzMat s'.A ≤ nnzMat s.A ∧ s'.operation_table = s.operation_table := by
  induction n generalizing s with
  | zero =>
    rw [singletonEqLoop] at h
    match hf : findSingletonEq s.A s.b with
    | none =>
      rw [hf] at h
      have h2 : s = s' := by simpa using h
      subst h2
      exact ⟨Nat.le_refl _, Nat.le_refl _, Nat.le_refl _, rfl⟩
    | some i => rw [hf] at h; simp at h
  | succ n ih =>
    rw [singletonEqLoop] at h
    match hf : findSingletonEq s.A s.b with
    | none =>
      rw [hf] at h
      have h2 : s = s' := by simpa using h
      subst h2
      exact ⟨Nat.le_refl _, Nat.le_refl _, Nat.le_refl _, rfl⟩
    | some i =>
      rw [hf] at h
      simp only at h
      by_cases hx : 0 ≤ s.b.getD i 0 / entry s.A i (firstNonzeroIdx (rowAt s.A i))
      · rw [if_pos hx] at h
        have h1 := ih h
        have h2 := singletonEqProcess_dims s i ((negative_counterpart s.A s.b i).getD 0)
        exact ⟨Nat.le_trans h1.1 h2.1, Nat.le_trans h1.2.1 h2.2.1,
          Nat.le_trans h1.2.2.1 h2.2.2.1, h1.2.2.2.trans h2.2.2.2⟩
      · rw [if_neg hx] at h
        have h1 := ih h
        exact h1

theorem tableOk_eliminate_singleton_equalities {n : Nat} {s s' : PState} (h : tableOk s)
    (hr : eliminate_singleton_equalities n s = some s') : tableOk s' := by
  rw [eliminate_singleton_equalities] at hr
  match hl : singletonEqLoop n s with
  | none => rw [hl] at hr; simp at hr
  | some s1 =>
    rw [hl] at hr
    simp only [Option.map_some', Option.some.injEq] at hr
    have hd := singletonEqLoop_dims hl
    subst hr
    refine tableOk_append (s := s) (l := "Eliminate Singleton Equalities") ?_
      hd.1 hd.2.1 (fun _ => hd.2.2.1) h
    simp only
    rw [hd.2.2.2]

theorem ktonProcess_dims (s : PState) (i mate : Nat) :
    (ktonProcess s i mate).cons_senses.length ≤ s.cons_senses.length ∧
    (ktonProcess s i mate).variable_names.length ≤ s.variable_names.length ∧
    (ktonProcess s i mate).operation_table = s.operation_table :=
  ⟨length_eraseIdx_le _ _, length_eraseIdx_le _ _, rfl⟩

theorem ktonLoop_dims {k n : Nat} {s s' : PState}
    (h : ktonLoop k n s = some s') :
    s'.cons_senses.length ≤ s.cons_senses.length ∧
    s'.variable_names.length ≤ s.variable_names.length ∧
    s'.operation_table = s.operation_table := by
  induction n generalizing s with
  | zero =>
    rw [ktonLoop] at h
    match hf : findKton k s.A s.b with
    | none =>
      rw [hf] at h
      have h2 : s = s' := by simpa using h
      subst h2
      exact ⟨Nat.le_refl _, Nat.le_refl _, rfl⟩
    | some i => rw [hf] at h; simp at h
  | succ n ih =>
    rw [ktonLoop] at h
    match hf : findKton k s.A s.b with
    | none =>
      rw [hf] at h
      have h2 : s = s' := by simpa using h
      subst h2
      exact ⟨Nat.le_refl _, Nat.le_refl _, rfl⟩
    | some i =>
      rw [hf] at h
      simp only at h
      have h1 := ih h
      have h2 := ktonProcess_dims s i ((negative_counterpart s.A s.b i).getD 0)
      exact ⟨Nat.le_trans h1.1 h2.1, Nat.le_trans h1.2.1 h2.2.1, h1.2.2.trans h2.2.2⟩

theorem tableOk_eliminate_kton_equalities {k n : Nat} {s s' : PState} (h : tableOk s)
    (hr : eliminate_kton_equalities k n s = some s') : tableOk s' := by
  rw [eliminate_kton_equalities] at hr
  match hl : ktonLoop k n s with
  | none => rw [hl] at hr; simp at hr
  | some s1 =>
    rw [hl] at hr
    simp only [Option.map_some', Option.some.injEq] at hr
    have hd := ktonLoop_dims hl
    subst hr
    refine tableOk_append (s := s) (l := "Eliminate Kton Equalities") ?_
      hd.1 hd.2.1 (fun hne => absurd rfl hne) h
    simp only
    rw [hd.2.2]

theorem tableOk_load (mi : MatrixInput) : tableOk (load_model_matrices mi) := by
  constructor
  · exact List.chain'_singleton _
  · exact ⟨"Initial", rfl⟩

theorem tableOk_orchestrator {dep : Detector} {cfg : Config} {fuel : Nat}
    {mi : MatrixInput} {s' : PState}
    (h : orchestrator_presolve_operations dep cfg fuel mi = some s') : tableOk s' := by
  unfold orchestrator_presolve_operations at h
  simp only at h
  set s0 := load_model_matrices mi with hs0
  set s1 := if cfg.perform_reduction_small_coefficients = true then
    reduction_small_coefficients s0 else s0 with hs1
  set s2 := if cfg.perform_eliminate_implied_bounds = true then
    eliminate_implied_bounds s1 else s1 with hs2
  set s3 := if cfg.perform_eliminate_redundant_rows = true then
    eliminate_redundant_rows dep s2 else s2 with hs3
  have h0 : tableOk s0 := tableOk_load mi
  have h1 : tableOk s1 := by
    rw [hs1]; split
    · exact tableOk_reduction_small_coefficients h0
    · exact h0
  have h2 : tableOk s2 := by
    rw [hs2]; split
    · exact tableOk_eliminate_implied_bounds h1
    · exact h1
  have h3 : tableOk s3 := by
    rw [hs3]; split
    · exact tableOk_eliminate_redundant_rows h2
    · exact h2
  match hk : (if cfg.perform_eliminate_kton_equalities = true then
      eliminate_kton_equalities cfg.k fuel s3 else some s3) with
  | none => rw [hk] at h; simp at h
  | some s4 =>
    rw [hk] at h
    simp only [Option.some_bind] at h
    have h4 : tableOk s4 := by
      by_cases hb : cfg.perform_eliminate_kton_equalities = true
      · rw [if_pos hb] at hk
        exact tableOk_eliminate_kton_equalities h3 hk
      · rw [if_neg hb] at hk
        have h5 : s3 = s4 := by simpa using hk
        exact h5 ▸ h3
    match he : (if cfg.perform_eliminate_singleton_equalities = true then
        eliminate_singleton_equalities fuel s4 else some s4) with
    | none => rw [he] at h; simp at h
    | some s5 =>
      rw [he] at h
      simp only [Option.some_bind, Option.some.injEq] at h
      have h5 : tableOk s5 := by
        by_cases hb : cfg.perform_eliminate_singleton_equalities = true
        · rw [if_pos hb] at he
          exact tableOk_eliminate_singleton_equalities h4 he
        · rw [if_neg hb] at he
          have h6 : s4 = s5 := by simpa using he
          exact h6 ▸ h4
      subst h
      set t6 := if cfg.perform_eliminate_singleton_inequalities = true then
        eliminate_singleton_inequalities s5 else s5 with ht6
      set t7 := if cfg.perform_eliminate_dual_singleton_inequalities = true then
        eliminate_dual_singleton_inequalities t6 else t6 with ht7
      set t8 := if cfg.perform_eliminate_redundant_columns = true then
        eliminate_redundant_columns t7 else t7 with ht8
      set t9 := if cfg.perform_eliminate_zero_rows = true then
        eliminate_zero_rows t8 else t8 with ht9
      have h6 : tableOk t6 := by
        rw [ht6]; split
        · exact tableOk_eliminate_singleton_inequalities h5
        · exact h5
      have h7 : tableOk t7 := by
        rw [ht7]; split
        · exact tableOk_eliminate_dual_singleton_inequalities h6
        · exact h6
      have h8 : tableOk t8 := by
        rw [ht8]; split
        · exact tableOk_eliminate_redundant_columns h7
        · exact h7
      have h9 : tableOk t9 := by
        rw [ht9]; split
        · exact tableOk_eliminate_zero_rows h8
        · exact h8
      split
      · exact tableOk_eliminate_zero_columns h9
      · exact h9

/-- Two engine states that agree everywhere except in the stored values of
`cons_senses` (whose lengths still agree). -/
def agreesExceptSenses (s t : PState) : Prop :=
  s.A = t.A ∧ s.b = t.b ∧ s.c = t.c ∧ s.co = t.co ∧ s.lb = t.lb ∧ s.ub = t.ub ∧
  s.of_sense = t.of_sense ∧ s.cons_senses.length = t.cons_senses.length ∧
  s.variable_names = t.variable_names ∧ s.original_row_index = t.original_row_index ∧
  s.original_column_index = t.original_column_index ∧ s.journal = t.journal ∧
  s.operation_table = t.operation_table ∧ s.warnings = t.warnings

theorem agrees_eliminate_zero_rows {s t : PState} (h : agreesExceptSenses s t) :
    agreesExceptSenses (eliminate_zero_rows s) (eliminate_zero_rows t) := by
  obtain ⟨hA, hb, hc, hco, hlb, hub, hof, hlen, hn, hor, hoc, hj, ht, hw⟩ := h
  unfold eliminate_zero_rows
  refine ⟨?_, ?_, ?_, ?_, ?_, ?_, ?_, ?_, ?_, ?_, ?_, ?_, ?_, ?_⟩ <;>
    simp only [hA, hb, hc, hco, hlb, hub, hof, hn, hor, hoc, hj, ht, hw,
      length_delAtAll_congr hlen]

theorem agrees_eliminate_zero_columns {s t : PState} (h : agreesExceptSenses s t) :
    agreesExceptSenses (eliminate_zero_columns s) (eliminate_zero_columns t) := by
  obtain ⟨hA, hb, hc, hco, hlb, hub, hof, hlen, hn, hor, hoc, hj, ht, hw⟩ := h
  unfold eliminate_zero_columns
  refine ⟨?_, ?_, ?_, ?_, ?_, ?_, ?_, ?_, ?_, ?_, ?_, ?_, ?_, ?_⟩ <;>
    simp only [hA, hb, hc, hco, hlb, hub, hof, hn, hor, hoc, hj, ht, hw, hlen,
      length_delAtAll_congr hlen]

theorem agrees_eliminate_singleton_inequalities {s t : PState} (h : agreesExceptSenses s t) :
    agreesExceptSenses (eliminate_singleton_inequalities s)
      (eliminate_singleton_inequalities t) := by
  obtain ⟨hA, hb, hc, hco, hlb, hub, hof, hlen, hn, hor, hoc, hj, ht, hw⟩ := h
  unfold eliminate_singleton_inequalities
  refine ⟨?_, ?_, ?_, ?_, ?_, ?_, ?_, ?_, ?_, ?_, ?_, ?_, ?_, ?_⟩ <;>
    simp only [hA, hb, hc, hco, hlb, hub, hof, hn, hor, hoc, hj, ht, hw,
      length_delAtAll_congr hlen]

theorem agrees_eliminate_dual_singleton_inequalities {s t : PState}
    (h : agreesExceptSenses s t) :
    agreesExceptSenses (eliminate_dual_singleton_inequalities s)
      (eliminate_dual_singleton_inequalities t) := by
  obtain ⟨hA, hb, hc, hco, hlb, hub, hof, hlen, hn, hor, hoc, hj, ht, hw⟩ := h
  unfold eliminate_dual_singleton_inequalities
  refine ⟨?_, ?_, ?_, ?_, ?_, ?_, ?_, ?_, ?_, ?_, ?_, ?_, ?_, ?_⟩ <;>
    simp only [hA, hb, hc, hco, hlb, hub, hof, hn, hor, hoc, hj, ht, hw,
      length_delAtAll_congr hlen]

theorem agrees_eliminate_redundant_columns {s t : PState} (h : agreesExceptSenses s t) :
    agreesExceptSenses (eliminate_redundant_columns s) (eliminate_redundant_columns t) := by
  obtain ⟨hA, hb, hc, hco, hlb, hub, hof, hlen, hn, hor, hoc, hj, ht, hw⟩ := h
  unfold eliminate_redundant_columns
  refine ⟨?_, ?_, ?_, ?_, ?_, ?_, ?_, ?_, ?_, ?_, ?_, ?_, ?_, ?_⟩ <;>
    simp only [hA, hb, hc, hco, hlb, hub, hof, hn, hor, hoc, hj, ht, hw,
      length_delAtAll_congr hlen]

theorem agrees_eliminate_implied_bounds {s t : PState} (h : agreesExceptSenses s t) :
    agreesExceptSenses (eliminate_implied_bounds s) (eliminate_implied_bounds t) := by
  obtain ⟨hA, hb, hc, hco, hlb, hub, hof, hlen, hn, hor, hoc, hj, ht, hw⟩ := h
  unfold eliminate_implied_bounds
  refine ⟨?_, ?_, ?_, ?_, ?_, ?_, ?_, ?_, ?_, ?_, ?_, ?_, ?_, ?_⟩ <;>
    simp only [hA, hb, hc, hco, hlb, hub, hof, hn, hor, hoc, hj, ht, hw,
      length_delAtAll_congr hlen]

theorem agrees_eliminate_redundant_rows {dep : Detector} {s t : PState}
    (h : agreesExceptSenses s t) :
    agreesExceptSenses (eliminate_redundant_rows dep s) (eliminate_redundant_rows dep t) := by
  obtain ⟨hA, hb, hc, hco, hlb, hub, hof, hlen, hn, hor, hoc, hj, ht, hw⟩ := h
  unfold eliminate_redundant_rows
  refine ⟨?_, ?_, ?_, ?_, ?_, ?_, ?_, ?_, ?_, ?_, ?_, ?_, ?_, ?_⟩ <;>
    simp only [hA, hb, hc, hco, hlb, hub, hof, hn, hor, hoc, hj, ht, hw,
      length_delAtAll_congr hlen]

theorem agrees_reduction_small_coefficients {s t : PState} (h : agreesExceptSenses s t) :
    agreesExceptSenses (reduction_small_coefficients s) (reduction_small_coefficients t) := by
  obtain ⟨hA, hb, hc, hco, hlb, hub, hof, hlen, hn, hor, hoc, hj, ht, hw⟩ := h
  unfold reduction_small_coefficients
  refine ⟨?_, ?_, ?_, ?_, ?_, ?_, ?_, ?_, ?_, ?_, ?_, ?_, ?_, ?_⟩ <;>
    simp only [hA, hb, hc, hco, hlb, hub, hof, hn, hor, hoc, hj, ht, hw, hlen]

theorem agrees_singletonEqProcess {s t : PState} (h : agreesExceptSenses s t)
    (i mate : Nat) :
    agreesExceptSenses (singletonEqProcess s i mate) (singletonEqProcess t i mate) := by
  obtain ⟨hA, hb, hc, hco, hlb, hub, hof, hlen, hn, hor, hoc, hj, ht, hw⟩ := h
  unfold singletonEqProcess
  refine ⟨?_, ?_, ?_, ?_, ?_, ?_, ?_, ?_, ?_, ?_, ?_, ?_, ?_, ?_⟩ <;>
    simp only [hA, hb, hc, hco, hlb, hub, hof, hn, hor, hoc, hj, ht, hw,
      length_delAtAll_congr hlen]

theorem agrees_ktonProcess {s t : PState} (h : agreesExceptSenses s t) (i mate : Nat) :
    agreesExceptSenses (ktonProcess s i mate) (ktonProcess t i mate) := by
  obtain ⟨hA, hb, hc, hco, hlb, hub, hof, hlen, hn, hor, hoc, hj, ht, hw⟩ := h
  unfold ktonProcess
  refine ⟨?_, ?_, ?_, ?_, ?_, ?_, ?_, ?_, ?_, ?_, ?_, ?_, ?_, ?_⟩ <;>
    simp only [hA, hb, hc, hco, hlb, hub, hof, hn, hor, hoc, hj, ht, hw,
      length_eraseIdx_congr hlen]

/-- Lift of `agreesExceptSenses` to the fuel-indexed option results. -/
def optionAgrees : Option PState → Option PState → Prop
  | none, none => True
  | some a, some b => agreesExceptSenses a b
  | _, _ => False

theorem agrees_warnBump {s t : PState} (h : agreesExceptSenses s t) :
    agreesExceptSenses { s with warnings := s.warnings + 1 }
      { t with warnings := t.warnings + 1 } := by
  obtain ⟨hA, hb, hc, hco, hlb, hub, hof, hlen, hn, hor, hoc, hj, ht, hw⟩ := h
  exact ⟨hA, hb, hc, hco, hlb, hub, hof, hlen, hn, hor, hoc, hj, ht, by rw [hw]⟩

theorem agrees_singletonEqLoop {s t : PState} (h : agreesExceptSenses s t) (n : Nat) :
    optionAgrees (singletonEqLoop n s) (singletonEqLoop n t) := by
  induction n generalizing s t with
  | zero =>
    have hf : findSingletonEq t.A t.b = findSingletonEq s.A s.b := by rw [h.1, h.2.1]
    rw [singletonEqLoop, singletonEqLoop, hf]
    match findSingletonEq s.A s.b with
    | none => exact h
    | some i => trivial
  | succ n ih =>
    have hf : findSingletonEq t.A t.b = findSingletonEq s.A s.b := by rw [h.1, h.2.1]
    rw [singletonEqLoop, singletonEqLoop, hf]
    match findSingletonEq s.A s.b with
    | none => exact h
    | some i =>
      simp only
      have hmate : (negative_counterpart t.A t.b i).getD 0 =
          (negative_counterpart s.A s.b i).getD 0 := by rw [h.1, h.2.1]
      by_cases hx : 0 ≤ s.b.getD i 0 / entry s.A i (firstNonzeroIdx (rowAt s.A i))
      · have hx2 : 0 ≤ t.b.getD i 0 / entry t.A i (firstNonzeroIdx (rowAt t.A i)) := by
          rw [← h.1, ← h.2.1]; exact hx
        rw [if_pos hx, if_pos hx2, hmate]
        exact ih (agrees_singletonEqProcess h i _)
      · have hx2 : ¬(0 ≤ t.b.getD i 0 / entry t.A i (firstNonzeroIdx (rowAt t.A i))) := by
          rw [← h.1, ← h.2.1]; exact hx
        rw [if_neg hx, if_neg hx2]
        exact ih (agrees_warnBump h)

theorem agrees_ktonLoop {s t : PState} (h : agreesExceptSenses s t) (k n : Nat) :
    optionAgrees (ktonLoop k n s) (ktonLoop k n t) := by
  induction n generalizing s t with
  | zero =>
    have hf : findKton k t.A t.b = findKton k s.A s.b := by rw [h.1, h.2.1]
    rw [ktonLoop, ktonLoop, hf]
    match findKton k s.A s.b with
    | none => exact h
    | some i => trivial
  | succ n ih =>
    have hf : findKton k t.A t.b = findKton k s.A s.b := by rw [h.1, h.2.1]
    rw [ktonLoop, ktonLoop, hf]
    match findKton k s.A s.b with
    | none => exact h
    | some i =>
      simp only
      have hmate : (negative_counterpart t.A t.b i).getD 0 =
          (negative_counterpart s.A s.b i).getD 0 := by rw [h.1, h.2.1]
      rw [hmate]
      exact ih (agrees_ktonProcess h i _)

theorem agrees_appendEntry {s t : PState} (h : agreesExceptSenses s t) (lbl : String) :
    agreesExceptSenses
      { s with operation_table := s.operation_table ++
          [(lbl, s.cons_senses.length, s.variable_names.length, nnzMat s.A)] }
      { t with operation_table := t.operation_table ++
          [(lbl, t.cons_senses.length, t.variable_names.length, nnzMat t.A)] } := by
  obtain ⟨hA, hb, hc, hco, hlb, hub, hof, hlen, hn, hor, hoc, hj, ht, hw⟩ := h
  exact ⟨hA, hb, hc, hco, hlb, hub, hof, hlen, hn, hor, hoc, hj,
    by rw [hA, hlen, hn, ht], hw⟩

theorem agrees_eliminate_singleton_equalities {s t : PState} (h : agreesExceptSenses s t)
    (n : Nat) :
    optionAgrees (eliminate_singleton_equalities n s) (eliminate_singleton_equalities n t) := by
  have hl := agrees_singletonEqLoop h n
  rw [eliminate_singleton_equalities, eliminate_singleton_equalities]
  match h1 : singletonEqLoop n s, h2 : singletonEqLoop n t with
  | none, none => trivial
  | some s1, some t1 =>
    rw [h1, h2] at hl
    exact agrees_appendEntry hl _
  | none, some t1 => rw [h1, h2] at hl; exact absurd hl (by simp [optionAgrees])
  | some s1, none => rw [h1, h2] at hl; exact absurd hl (by simp [optionAgrees])

theorem agrees_eliminate_kton_equalities {s t : PState} (h : agreesExceptSenses s t)
    (k n : Nat) :
    optionAgrees (eliminate_kton_equalities k n s) (eliminate_kton_equalities k n t) := by
  have hl := agrees_ktonLoop h k n
  rw [eliminate_kton_equalities, eliminate_kton_equalities]
  match h1 : ktonLoop k n s, h2 : ktonLoop k n t with
  | none, none => trivial
  | some s1, some t1 =>
    rw [h1, h2] at hl
    exact agrees_appendEntry hl _
  | none, some t1 => rw [h1, h2] at hl; exact absurd hl (by simp [optionAgrees])
  | some s1, none => rw [h1, h2] at hl; exact absurd hl (by simp [optionAgrees])

/-- Two matrix inputs that differ only in the stored sense values. -/
def miAgrees (mi1 mi2 : MatrixInput) : Prop :=
  mi1.A = mi2.A ∧ mi1.b = mi2.b ∧ mi1.c = mi2.c ∧ mi1.co = mi2.co ∧ mi1.lb = mi2.lb ∧
  mi1.ub = mi2.ub ∧ mi1.of_sense = mi2.of_sense ∧
  mi1.cons_senses.length = mi2.cons_senses.length ∧
  mi1.variable_names = mi2.variable_names

theorem agrees_load {mi1 mi2 : MatrixInput} (h : miAgrees mi1 mi2) :
    agreesExceptSenses (load_model_matrices mi1) (load_model_matrices mi2) := by
  obtain ⟨hA, hb, hc, hco, hlb, hub, hof, hlen, hn⟩ := h
  unfold load_model_matrices
  exact ⟨hA, hb, hc, hco, hlb, hub, hof, hlen, hn, by rw [hA], by rw [hA], rfl,
    by rw [hA, hlen, hn], rfl⟩

theorem agrees_orchestrator {dep : Detector} {cfg : Config} {fuel : Nat}
    {mi1 mi2 : MatrixInput} (h : miAgrees mi1 mi2) :
    optionAgrees (orchestrator_presolve_operations dep cfg fuel mi1)
      (orchestrator_presolve_operations dep cfg fuel mi2) := by
  unfold orchestrator_presolve_operations
  simp only
  have h0 : agreesExceptSenses (load_model_matrices mi1) (load_model_matrices mi2) :=
    agrees_load h
  set u0 := load_model_matrices mi1
  set v0 := load_model_matrices mi2
  set u1 := if cfg.perform_reduction_small_coefficients = true then
    reduction_small_coefficients u0 else u0 with hu1
  set v1 := if cfg.perform_reduction_small_coefficients = true then
    reduction_small_coefficients v0 else v0 with hv1
  have h1 : agreesExceptSenses u1 v1 := by
    rw [hu1, hv1]; split
    · exact agrees_reduction_small_coefficients h0
    · exact h0
  set u2 := if cfg.perform_eliminate_implied_bounds = true then
    eliminate_implied_bounds u1 else u1 with hu2
  set v2 := if cfg.perform_eliminate_implied_bounds = true then
    eliminate_implied_bounds v1 else v1 with hv2
  have h2 : agreesExceptSenses u2 v2 := by
    rw [hu2, hv2]; split
    · exact agrees_eliminate_implied_bounds h1
    · exact h1
  set u3 := if cfg.perform_eliminate_redundant_rows = true then
    eliminate_redundant_rows dep u2 else u2 with hu3
  set v3 := if cfg.perform_eliminate_redundant_rows = true then
    eliminate_redundant_rows dep v2 else v2 with hv3
  have h3 : agreesExceptSenses u3 v3 := by
    rw [hu3, hv3]; split
    · exact agrees_eliminate_redundant_rows h2
    · exact h2
  have hk : optionAgrees
      (if cfg.perform_eliminate_kton_equalities = true then
        eliminate_kton_equalities cfg.k fuel u3 else some u3)
      (if cfg.perform_eliminate_kton_equalities = true then
        eliminate_kton_equalities cfg.k fuel v3 else some v3) := by
    split
    · exact agrees_eliminate_kton_equalities h3 cfg.k fuel
    · exact h3
  match hk1 : (if cfg.perform_eliminate_kton_equalities = true then
      eliminate_kton_equalities cfg.k fuel u3 else some u3),
    hk2 : (if cfg.perform_eliminate_kton_equalities = true then
      eliminate_kton_equalities cfg.k fuel v3 else some v3) with
  | none, none => trivial
  | none, some t4 => rw [hk1, hk2] at hk; exact absurd hk (by simp [optionAgrees])
  | some s4, none => rw [hk1, hk2] at hk; exact absurd hk (by simp [optionAgrees])
  | some s4, some t4 =>
    rw [hk1, hk2] at hk
    simp only [Option.some_bind]
    have hs : optionAgrees
        (if cfg.perform_eliminate_singleton_equalities = true then
          eliminate_singleton_equalities fuel s4 else some s4)
        (if cfg.perform_eliminate_singleton_equalities = true then
          eliminate_singleton_equalities fuel t4 else some t4) := by
      split
      · exact agrees_eliminate_singleton_equalities hk fuel
      · exact hk
    match hs1 : (if cfg.perform_eliminate_singleton_equalities = true then
        eliminate_singleton_equalities fuel s4 else some s4),
      hs2 : (if cfg.perform_eliminate_singleton_equalities = true then
        eliminate_singleton_equalities fuel t4 else some t4) with
    | none, none => trivial
    | none, some t5 => rw [hs1, hs2] at hs; exact absurd hs (by simp [optionAgrees])
    | some s5, none => rw [hs1, hs2] at hs; exact absurd hs (by simp [optionAgrees])
    | some s5, some t5 =>
      rw [hs1, hs2] at hs
      simp only [Option.some_bind]
      show agreesExceptSenses _ _
      set w6 := if cfg.perform_eliminate_singleton_inequalities = true then
        eliminate_singleton_inequalities s5 else s5 with hw6
      set x6 := if cfg.perform_eliminate_singleton_inequalities = true then
        eliminate_singleton_inequalities t5 else t5 with hx6
      have h6 : agreesExceptSenses w6 x6 := by
        rw [hw6, hx6]; split
        · exact agrees_eliminate_singleton_inequalities hs
        · exact hs
      set w7 := if cfg.perform_eliminate_dual_singleton_inequalities = true then
        eliminate_dual_singleton_inequalities w6 else w6 with hw7
      set x7 := if cfg.perform_eliminate_dual_singleton_inequalities = true then
        eliminate_dual_singleton_inequalities x6 else x6 with hx7
      have h7 : agreesExceptSenses w7 x7 := by
        rw [hw7, hx7]; split
        · exact agrees_eliminate_dual_singleton_inequalities h6
        · exact h6
      set w8 := if cfg.perform_eliminate_redundant_columns = true then
        eliminate_redundant_columns w7 else w7 with hw8
      set x8 := if cfg.perform_eliminate_redundant_columns = true then
        eliminate_redundant_columns x7 else x7 with hx8
      have h8 : agreesExceptSenses w8 x8 := by
        rw [hw8, hx8]; split
        · exact agrees_eliminate_redundant_columns h7
        · exact h7
      set w9 := if cfg.perform_eliminate_zero_rows = true then
        eliminate_zero_rows w8 else w8 with hw9
      set x9 := if cfg.perform_eliminate_zero_rows = true then
        eliminate_zero_rows x8 else x8 with hx9
      have h9 : agreesExceptSenses w9 x9 := by
        rw [hw9, hx9]; split
        · exact agrees_eliminate_zero_rows h8
        · exact h8
      split
      · exact agrees_eliminate_zero_columns h9
      · exact h9

theorem not_deletable_of_contains_false {A : Mat} {b : List ℚ} {j : Nat}
    (hj : j < shapeRows A)
    (hc : (((List.range (shapeRows A)).filter (zeroRowDeletable A b)).contains j) = false) :
    zeroRowDeletable A b j = false := by
  by_contra hne
  have hdel : zeroRowDeletable A b j = true := by
    cases h1 : zeroRowDeletable A b j
    · exact absurd h1 hne
    · rfl
  have hmem : j ∈ (List.range (shapeRows A)).filter (zeroRowDeletable A b) :=
    List.mem_filter.mpr ⟨List.mem_range.mpr hj, hdel⟩
  simp [hmem] at hc

theorem zeroRowDeletable_after {s : PState} (hb : s.b.length = s.A.length)
    {i : Nat} (hi : i < (eliminate_zero_rows s).A.length) :
    zeroRowDeletable (eliminate_zero_rows s).A (eliminate_zero_rows s).b i = false := by
  have hpw : ((List.range (shapeRows s.A)).filter
      (zeroRowDeletable s.A s.b)).Pairwise (· < ·) := pairwise_lt_filter_range _ _
  set td := (List.range (shapeRows s.A)).filter (zeroRowDeletable s.A s.b) with htd
  have hA1 : (eliminate_zero_rows s).A = npDelete s.A td := rfl
  have hb1 : (eliminate_zero_rows s).b = npDelete s.b td := delAtAll_eq_npDelete s.b hpw
  have hlen : (npDelete s.b td).length = (npDelete s.A td).length :=
    length_npDeleteFrom_congr hb td 0
  have hiA : i < (npDelete s.A td).length := by rw [← hA1]; exact hi
  have hib : i < (npDelete s.b td).length := by rw [hlen]; exact hiA
  have hzip : npDelete (s.A.zip s.b) td = (npDelete s.A td).zip (npDelete s.b td) :=
    npDeleteFrom_zip td 0 hb.symm
  have hizip : i < ((npDelete s.A td).zip (npDelete s.b td)).length := by
    rw [List.length_zip]
    omega
  have hpair : ((npDelete s.A td).zip (npDelete s.b td)).getD i ([], 0) =
      ((npDelete s.A td).getD i [], (npDelete s.b td).getD i 0) :=
    zip_getD hiA hib [] 0
  have hmem : ((npDelete s.A td).getD i [], (npDelete s.b td).getD i 0) ∈
      npDelete (s.A.zip s.b) td := by
    rw [hzip, ← hpair]
    exact getD_mem hizip ([], 0)
  rcases (mem_npDelete_iff td (s.A.zip s.b) _ ([], (0 : ℚ))).mp hmem with ⟨j, hjlt, hjc, hjget⟩
  have hjA : j < s.A.length := by
    rw [List.length_zip] at hjlt
    omega
  have hjb : j < s.b.length := by rw [hb]; exact hjA
  rw [zip_getD hjA hjb [] 0] at hjget
  have hrow : s.A.getD j [] = (npDelete s.A td).getD i [] := congrArg Prod.fst hjget
  have hrhs : s.b.getD j 0 = (npDelete s.b td).getD i 0 := congrArg Prod.snd hjget
  have hnd := not_deletable_of_contains_false (b := s.b) hjA hjc
  unfold zeroRowDeletable at hnd ⊢
  unfold rowAt at hnd ⊢
  rw [hA1, hb1, ← hrow, ← hrhs]
  exact hnd

theorem zeroRows_second_pass_empty {s : PState} (hb : s.b.length = s.A.length) :
    (List.range (shapeRows (eliminate_zero_rows s).A)).filter
      (zeroRowDeletable (eliminate_zero_rows s).A (eliminate_zero_rows s).b) = [] := by
  refine List.filter_eq_nil_iff.mpr ?_
  intro a ha
  have hlt : a < (eliminate_zero_rows s).A.length := List.mem_range.mp ha
  simp [zeroRowDeletable_after hb hlt]

theorem delAtAll_nil_idxs (l : List α) : delAtAll l [] = l := rfl

theorem eliminate_zero_rows_no_deletable {s : PState}
    (h : (List.range (shapeRows s.A)).filter (zeroRowDeletable s.A s.b) = []) :
    (eliminate_zero_rows s).A = s.A ∧ (eliminate_zero_rows s).b = s.b ∧
    (eliminate_zero_rows s).cons_senses = s.cons_senses ∧
    (eliminate_zero_rows s).original_row_index = s.original_row_index ∧
    (eliminate_zero_rows s).journal.zeroRowsDeletedRows = [] := by
  unfold eliminate_zero_rows
  simp only [h]
  exact ⟨npDelete_nil_idxs s.A, delAtAll_nil_idxs s.b, delAtAll_nil_idxs s.cons_senses,
    delAtAll_nil_idxs s.original_row_index, rfl⟩

theorem nodup_getD_inj {l : List Nat} (h : l.Nodup) {i j : Nat} (hi : i < l.length)
    (hj : j < l.length) (he : l.getD i 0 = l.getD j 0) : i = j := by
  rw [List.getD_eq_getElem _ _ hi, List.getD_eq_getElem _ _ hj] at he
  exact h.getElem_inj_iff.mp he

/-- A throwaway state used only as an `Option.getD` default in witnesses. -/
def emptyState : PState :=
  { A := [], b := [], c := [], co := 0, lb := [], ub := [], of_sense := "",
    cons_senses := [], variable_names := [], original_row_index := [],
    original_column_index := [], journal := emptyJournal, operation_table := [],
    warnings := 0 }

/-- Detector instance standing in for `linear_dependency` in concrete runs
(no dependencies reported). -/
def trivialDep : Detector := fun _ _ => ([], [])

/-- Configuration with every rule disabled and the source's default `k = 5`. -/
def cfgNone : Config :=
  { perform_eliminate_zero_rows := false
    perform_eliminate_zero_columns := false
    perform_eliminate_singleton_equalities := false
    perform_eliminate_kton_equalities := false
    k := 5
    perform_eliminate_singleton_inequalities := false
    perform_eliminate_dual_singleton_inequalities := false
    perform_eliminate_redundant_columns := false
    perform_eliminate_implied_bounds := false
    perform_eliminate_redundant_rows := false
    perform_reduction_small_coefficients := false }

/-- Singleton equality pair `x0 = -1` (rows `x0 ≤ -1` and `-x0 ≤ 1`): the
fixed value is negative, so the source's `x_k < 0` warning branch repeats
forever. -/
def miC1 : MatrixInput :=
  { A := [[1], [-1]], b := [-1, 1], c := [0], co := 0, lb := [0], ub := [1],
    of_sense := "minimize", cons_senses := [Sense.le, Sense.le],
    variable_names := ["x0"] }

/-- Spec scenario 2: zero first row with `b = 3 > 0`. -/
def miC2 : MatrixInput :=
  { A := [[0, 0], [1, 1]], b := [3, 2], c := [1, 1], co := 0, lb := [0, 0],
    ub := [10, 10], of_sense := "minimize", cons_senses := [Sense.le, Sense.le],
    variable_names := ["x0", "x1"] }

/-- Input whose first row meets both implied-bound deletion conditions:
`b[0] = 10^30 ≥ infinity` and `INF[0] = 2·10^30 > b[0] + tolerance`. -/
def miC3 : MatrixInput :=
  { A := [[1, 0], [0, 1]], b := [10 ^ 30, 5], c := [0, 0], co := 0,
    lb := [2 * 10 ^ 30, 0], ub := [3 * 10 ^ 30, 10], of_sense := "minimize",
    cons_senses := [Sense.le, Sense.le], variable_names := ["x0", "x1"] }

/-- Singleton inequality row `x0 ≤ 0` with positive coefficient and zero
right-hand side (the journal-skipping case of the source). -/
def miC4 : MatrixInput :=
  { A := [[1]], b := [0], c := [0], co := 0, lb := [0], ub := [10],
    of_sense := "minimize", cons_senses := [Sense.le], variable_names := ["x0"] }

/-- A 3-ton equality `x0 + x1 + x2 = 4` together with five rows touching
only the pivot column: eliminating the pivot fills in two nonzeros per row,
so the k-ton pass raises the nonzero count from 11 to 12. -/
def miC5 : MatrixInput :=
  { A := [[1, 1, 1], [-1, -1, -1], [0, 0, 1], [0, 0, 1], [0, 0, 1], [0, 0, 1], [0, 0, 1]],
    b := [4, -4, 1, 2, 3, 5, 6], c := [0, 0, 0], co := 0, lb := [0, 0, 0],
    ub := [10, 10, 10], of_sense := "minimize",
    cons_senses := [Sense.le, Sense.le, Sense.le, Sense.le, Sense.le, Sense.le, Sense.le],
    variable_names := ["x0", "x1", "x2"] }

/-- Configuration enabling only k-ton elimination with `k = 3`. -/
def cfgC5 : Config :=
  { cfgNone with perform_eliminate_kton_equalities := true, k := 3 }

/-- Equality pair `x0 = 2` plus the row `x0 + x1 ≤ 1`: after the first run
substitutes `x0 = 2`, the surviving row `x1 ≤ -1` is newly removable by the
implied-bound rule, so a second orchestrator run is not a no-op. -/
def miC6 : MatrixInput :=
  { A := [[1, 0], [-1, 0], [1, 1]], b := [2, -2, 1], c := [1, 1], co := 0,
    lb := [0, 0], ub := [10, 10], of_sense := "minimize",
    cons_senses := [Sense.le, Sense.le, Sense.le], variable_names := ["x0", "x1"] }

/-- Configuration enabling implied bounds and singleton equalities. -/
def cfgC6 : Config :=
  { cfgNone with
    perform_eliminate_implied_bounds := true
    perform_eliminate_singleton_equalities := true }

/-- Configuration enabling only zero-row elimination. -/
def cfgZeroRows : Config :=
  { cfgNone with perform_eliminate_zero_rows := true }

/-- Spec scenario 6: `x0 + 2·x1 = 4` as a negative-counterpart pair plus
the row `x1 + x2 ≤ 5`; `k = 2`. -/
def miC8 : MatrixInput :=
  { A := [[1, 2, 0], [-1, -2, 0], [0, 1, 1]], b := [4, -4, 5], c := [0, 0, 0],
    co := 0, lb := [0, 0, 0], ub := [10, 10, 10], of_sense := "minimize",
    cons_senses := [Sense.le, Sense.le, Sense.le], variable_names := ["x0", "x1", "x2"] }

/-- Configuration enabling only k-ton elimination with `k = 2`. -/
def cfgC8 : Config :=
  { cfgNone with perform_eliminate_kton_equalities := true, k := 2 }

/-- Rebuilds the matrix tuple from an engine state, as re-extracting the
matrices of the reduced model would. -/
def rematerialize (s : PState) : MatrixInput :=
  { A := s.A, b := s.b, c := s.c, co := s.co, lb := s.lb, ub := s.ub,
    of_sense := s.of_sense, cons_senses := s.cons_senses,
    variable_names := s.variable_names }

theorem C1_loop_stuck (n : Nat) : ∀ w : Nat,
    singletonEqLoop n { load_model_matrices miC1 with warnings := w } = none := by
  induction n with
  | zero =>
    intro w
    have hA : ({ load_model_matrices miC1 with warnings := w } : PState).A = miC1.A := rfl
    have hb : ({ load_model_matrices miC1 with warnings := w } : PState).b = miC1.b := rfl
    have hf : findSingletonEq miC1.A miC1.b = some 0 := by decide
    rw [singletonEqLoop, hA, hb, hf]
  | succ n ih =>
    intro w
    have hA : ({ load_model_matrices miC1 with warnings := w } : PState).A = miC1.A := rfl
    have hb : ({ load_model_matrices miC1 with warnings := w } : PState).b = miC1.b := rfl
    have hf : findSingletonEq miC1.A miC1.b = some 0 := by decide
    rw [singletonEqLoop, hA, hb, hf]
    simp only
    have hneg : ¬(0 ≤ miC1.b.getD 0 0 /
        entry miC1.A 0 (firstNonzeroIdx (rowAt miC1.A 0))) := by decide
    rw [if_neg hneg]
    exact ih (w + 1)

/-- C1: the claim says `eliminate_singleton_equalities` always terminates,
and that on a singleton equality with `x_k = b[i]/A[i,k] < 0` it signals
infeasibility as a warning and stops, the engine continuing to the next
rule.  On `miC1` (the pair `x0 ≤ -1`, `-x0 ≤ 1` fixing `x0 = -1`) the
source's `found_singleton` flag stays `True` in the `x_k < 0` branch and
the state never changes, so the `while` loop re-finds the same row forever:
for every fuel the embedded loop still demands another iteration. -/
theorem C1_singleton_equality_nontermination (fuel : Nat) :
    eliminate_singleton_equalities fuel (load_model_matrices miC1) = none := by
  have h := C1_loop_stuck fuel 0
  have h2 : ({ load_model_matrices miC1 with warnings := 0 } : PState) =
      load_model_matrices miC1 := rfl
  rw [h2] at h
  rw [eliminate_singleton_equalities, h]
  rfl

/-- C2 counterexample: on spec scenario 2 (`A = [[0,0],[1,1]]`,
`b = [3,2]`) the zero row with positive right-hand side is NOT deleted —
`A` and `b` are unchanged and the journal entry is empty — refuting the
claim's "still deletes that row"; exactly one warning is emitted. -/
theorem C2_counterexample :
    (eliminate_zero_rows (load_model_matrices miC2)).A = [[0, 0], [1, 1]] ∧
    (eliminate_zero_rows (load_model_matrices miC2)).b = [3, 2] ∧
    (eliminate_zero_rows (load_model_matrices miC2)).warnings = 1 ∧
    (eliminate_zero_rows (load_model_matrices miC2)).journal.zeroRowsDeletedRows = [] ∧
    ¬((eliminate_zero_rows (load_model_matrices miC2)).A.length = 1) := by
  decide

/-- C2 (amended): a zero row with `b[i] > 0` makes `eliminate_zero_rows`
emit one infeasibility warning while the row is KEPT (no exception is
raised: the rule is a total function); a zero row with `b[i] ≤ 0` is
deleted as redundant and its original index journalled. -/
theorem C2_zero_rows_amended (s : PState) (i : Nat)
    (horig : s.original_row_index.length = s.A.length)
    (hnd : s.original_row_index.Nodup)
    (hi : i < s.A.length)
    (hzero : isZeroRow (rowAt s.A i) = true) :
    (0 < s.b.getD i 0 →
      s.original_row_index.getD i 0 ∈ (eliminate_zero_rows s).original_row_index ∧
      s.warnings < (eliminate_zero_rows s).warnings) ∧
    (s.b.getD i 0 ≤ 0 →
      s.original_row_index.getD i 0 ∈
        (eliminate_zero_rows s).journal.zeroRowsDeletedRows ∧
      s.original_row_index.getD i 0 ∉ (eliminate_zero_rows s).original_row_index) := by
  set td := (List.range (shapeRows s.A)).filter (zeroRowDeletable s.A s.b) with htd
  have hpw : td.Pairwise (· < ·) := pairwise_lt_filter_range _ _
  have horig1 : (eliminate_zero_rows s).original_row_index =
      npDelete s.original_row_index td := delAtAll_eq_npDelete _ hpw
  constructor
  · intro hpos
    have hdel : zeroRowDeletable s.A s.b i = false := by
      unfold zeroRowDeletable
      rw [hzero, Bool.true_and]
      exact decide_eq_false (not_le.mpr hpos)
    have hnmem : i ∉ td := by
      intro hm
      have h1 := (List.mem_filter.mp hm).2
      rw [hdel] at h1
      exact absurd h1 (by simp)
    have hcont : td.contains i = false := by simp [hnmem]
    refine ⟨?_, ?_⟩
    · rw [horig1]
      exact (mem_npDelete_iff td s.original_row_index _ 0).mpr
        ⟨i, by omega, hcont, rfl⟩
    · have hwmem : i ∈ (List.range (shapeRows s.A)).filter (fun r =>
          isZeroRow (rowAt s.A r) && decide (0 < s.b.getD r 0)) :=
        List.mem_filter.mpr ⟨List.mem_range.mpr hi,
          by rw [hzero, Bool.true_and]; exact decide_eq_true hpos⟩
      have hlp : 0 < ((List.range (shapeRows s.A)).filter (fun r =>
          isZeroRow (rowAt s.A r) && decide (0 < s.b.getD r 0))).length :=
        List.length_pos.mpr (List.ne_nil_of_mem hwmem)
      have hwarn : (eliminate_zero_rows s).warnings = s.warnings +
          ((List.range (shapeRows s.A)).filter (fun r =>
            isZeroRow (rowAt s.A r) && decide (0 < s.b.getD r 0))).length := rfl
      rw [hwarn]
      omega
  · intro hle
    have hdel : zeroRowDeletable s.A s.b i = true := by
      unfold zeroRowDeletable
      rw [hzero, Bool.true_and]
      exact decide_eq_true hle
    have hmem : i ∈ td := List.mem_filter.mpr ⟨List.mem_range.mpr hi, hdel⟩
    refine ⟨?_, ?_⟩
    · have hjr : (eliminate_zero_rows s).journal.zeroRowsDeletedRows =
          td.map (fun r => s.original_row_index.getD r 0) := rfl
      rw [hjr]
      exact List.mem_map.mpr ⟨i, hmem, rfl⟩
    · rw [horig1]
      intro hmem2
      rcases (mem_npDelete_iff td s.original_row_index _ 0).mp hmem2 with ⟨j, hjl, hjc, hje⟩
      have hij : j = i := nodup_getD_inj hnd hjl (by omega) hje
      subst hij
      simp [hmem] at hjc

/-- C2 witness: the amended statement applied to scenario 2 at row 0. -/
theorem C2_zero_rows_amended_witness :
    (load_model_matrices miC2).original_row_index.getD 0 0 ∈
      (eliminate_zero_rows (load_model_matrices miC2)).original_row_index ∧
    (load_model_matrices miC2).warnings <
      (eliminate_zero_rows (load_model_matrices miC2)).warnings :=
  (C2_zero_rows_amended (load_model_matrices miC2) 0 (by decide) (by decide) (by decide)
    (by decide)).1 (by decide)

/-- C3: the claim (and the spec's invariant) requires
`rows(A) = |b| = |cons_senses| = |original_row_index|` after each rule.  On
`miC3` the first row meets both implied-bound deletion conditions
(`b[0] = 10^30 ≥ infinity` and `INF[0] = 2·10^30 > b[0] + tolerance`), so
its index is appended twice; `np.delete` drops the row once from `A` while
the `del` loops shorten `b`, `cons_senses` and `original_row_index` twice,
leaving `rows(A) = 1` against `|b| = |cons_senses| = |original_row_index|
= 0`. -/
theorem C3_implied_bounds_dimension_break :
    (eliminate_implied_bounds (load_model_matrices miC3)).A.length = 1 ∧
    (eliminate_implied_bounds (load_model_matrices miC3)).b.length = 0 ∧
    (eliminate_implied_bounds (load_model_matrices miC3)).cons_senses.length = 0 ∧
    (eliminate_implied_bounds (load_model_matrices miC3)).original_row_index.length = 0 := by
  decide

/-- C4 counterexample: on `miC4` (singleton row `x0 ≤ 0`, case
`A[i,k] > 0`, `b[i] = 0`) the row is deleted (`A` and `b` become empty) but
`eliminate_singleton_inequalities.deleted_rows_indices` stays empty: the
deleted row's original index is not recorded. -/
theorem C4_counterexample :
    (eliminate_singleton_inequalities (load_model_matrices miC4)).A.length = 0 ∧
    (eliminate_singleton_inequalities (load_model_matrices miC4)).b.length = 0 ∧
    (eliminate_singleton_inequalities
      (load_model_matrices miC4)).journal.singletonIneqDeletedRows = [] := by
  decide

/-- Case condition of rows `eliminate_singleton_inequalities` journals:
sign cases `(A_ik > 0, b_i < 0)` and `(A_ik < 0, b_i = 0)`. -/
def siRecordedCase (s : PState) (r : Nat) : Bool :=
  decide (0 < entry s.A r (firstNonzeroIdx (rowAt s.A r)) ∧ s.b.getD r 0 < 0) ||
    decide (entry s.A r (firstNonzeroIdx (rowAt s.A r)) < 0 ∧ s.b.getD r 0 = 0)

/-- Case condition of rows `eliminate_singleton_inequalities` deletes:
the three sign cases other than the infeasibility warning. -/
def siDeletedCase (s : PState) (r : Nat) : Bool :=
  decide (0 < entry s.A r (firstNonzeroIdx (rowAt s.A r)) ∧ s.b.getD r 0 < 0) ||
    decide (0 < entry s.A r (firstNonzeroIdx (rowAt s.A r)) ∧ s.b.getD r 0 = 0) ||
    decide (entry s.A r (firstNonzeroIdx (rowAt s.A r)) < 0 ∧ s.b.getD r 0 = 0)

theorem si_journal_eq (s : PState) :
    (eliminate_singleton_inequalities s).journal.singletonIneqDeletedRows =
      ((List.range (shapeRows s.A)).filter (fun r =>
        singletonIneqValid s.A s.b r && siRecordedCase s r)).map
        (fun r => s.original_row_index.getD r 0) := rfl

theorem si_orig_eq (s : PState) :
    (eliminate_singleton_inequalities s).original_row_index =
      delAtAll s.original_row_index ((List.range (shapeRows s.A)).filter (fun r =>
        singletonIneqValid s.A s.b r && siDeletedCase s r)) := rfl

/-- C4 (amended): of the rows `eliminate_singleton_inequalities` deletes,
those of the cases `(A[i,k] > 0, b[i] < 0)` and `(A[i,k] < 0, b[i] = 0)`
are journalled in `deleted_rows_indices`, but a row of the case
`(A[i,k] > 0, b[i] = 0)` is deleted (its original index leaves
`original_row_index`) without being recorded in the journal. -/
theorem C4_singleton_ineq_journal (s : PState) (i : Nat)
    (horig : s.original_row_index.length = shapeRows s.A)
    (hnd : s.original_row_index.Nodup)
    (hi : i < shapeRows s.A)
    (hvalid : singletonIneqValid s.A s.b i = true) :
    ((0 < entry s.A i (firstNonzeroIdx (rowAt s.A i)) ∧ s.b.getD i 0 < 0) ∨
      (entry s.A i (firstNonzeroIdx (rowAt s.A i)) < 0 ∧ s.b.getD i 0 = 0) →
      s.original_row_index.getD i 0 ∈
        (eliminate_singleton_inequalities s).journal.singletonIneqDeletedRows) ∧
    ((0 < entry s.A i (firstNonzeroIdx (rowAt s.A i)) ∧ s.b.getD i 0 = 0) →
      s.original_row_index.getD i 0 ∉
        (eliminate_singleton_inequalities s).journal.singletonIneqDeletedRows ∧
      s.original_row_index.getD i 0 ∉
        (eliminate_singleton_inequalities s).original_row_index) := by
  constructor
  · intro hcase
    rw [si_journal_eq]
    refine List.mem_map.mpr ⟨i, ?_, rfl⟩
    refine List.mem_filter.mpr ⟨List.mem_range.mpr hi, ?_⟩
    rw [hvalid, Bool.true_and]
    unfold siRecordedCase
    rcases hcase with h1 | h1
    · rw [decide_eq_true h1, Bool.true_or]
    · rw [decide_eq_true h1, Bool.or_true]
  · intro hcase
    constructor
    · rw [si_journal_eq]
      intro hmem
      rcases List.mem_map.mp hmem with ⟨j, hj, hje⟩
      rcases List.mem_filter.mp hj with ⟨hjr, hjcond⟩
      have hjlt : j < shapeRows s.A := List.mem_range.mp hjr
      have hij : j = i := nodup_getD_inj hnd (by omega) (by omega) hje
      subst hij
      have hrec : siRecordedCase s j = true := by
        cases h2 : singletonIneqValid s.A s.b j with
        | false => rw [h2, Bool.false_and] at hjcond; exact absurd hjcond (by simp)
        | true => rw [h2, Bool.true_and] at hjcond; exact hjcond
      unfold siRecordedCase at hrec
      rcases Bool.or_eq_true_iff.mp hrec with h1 | h1
      · have h3 := (of_decide_eq_true h1).2
        have h4 := hcase.2
        rw [h4] at h3
        exact absurd h3 (lt_irrefl 0)
      · have h3 := (of_decide_eq_true h1).1
        have h4 := hcase.1
        exact absurd (lt_trans h3 h4) (lt_irrefl _)
    · rw [si_orig_eq]
      have hpw : ((List.range (shapeRows s.A)).filter (fun r =>
          singletonIneqValid s.A s.b r && siDeletedCase s r)).Pairwise (· < ·) :=
        pairwise_lt_filter_range _ _
      rw [delAtAll_eq_npDelete _ hpw]
      intro hmem
      rcases (mem_npDelete_iff _ s.original_row_index _ 0).mp hmem with ⟨j, hjl, hjc, hje⟩
      have hij : j = i := nodup_getD_inj hnd hjl (by omega) hje
      subst hij
      have hjm : j ∈ (List.range (shapeRows s.A)).filter (fun r =>
          singletonIneqValid s.A s.b r && siDeletedCase s r) := by
        refine List.mem_filter.mpr ⟨List.mem_range.mpr hi, ?_⟩
        rw [hvalid, Bool.true_and]
        unfold siDeletedCase
        simp only [decide_eq_true hcase, Bool.true_or, Bool.or_true]
      simp [hjm] at hjc

/-- C4 witness: the amended statement applied to `miC4` at row 0, whose
case is `(A[i,k] > 0, b[i] = 0)`. -/
theorem C4_singleton_ineq_journal_witness :
    (load_model_matrices miC4).original_row_index.getD 0 0 ∉
      (eliminate_singleton_inequalities
        (load_model_matrices miC4)).journal.singletonIneqDeletedRows ∧
    (load_model_matrices miC4).original_row_index.getD 0 0 ∉
      (eliminate_singleton_inequalities (load_model_matrices miC4)).original_row_index :=
  (C4_singleton_ineq_journal (load_model_matrices miC4) 0 (by decide) (by decide)
    (by decide) (by decide)).2 (by decide)

theorem contains_true_of_mem {l : List Nat} {a : Nat} (h : a ∈ l) :
    l.contains a = true := by simp [h]

theorem zc_journal_eq (s : PState) :
    (eliminate_zero_columns s).journal.zeroColsDeletedColumns =
      (((List.range (shapeCols s.A)).filter (fun j =>
        (colAt s.A j).all (fun x => decide (x = 0)))).filter (fun j =>
          decide (0 ≤ s.c.getD j 0))).map
        (fun j => s.original_column_index.getD j 0) := rfl

theorem zc_solution_eq (s : PState) :
    (eliminate_zero_columns s).journal.zeroColsSolution =
      (((List.range (shapeCols s.A)).filter (fun j =>
        (colAt s.A j).all (fun x => decide (x = 0)))).filter (fun j =>
          decide (0 ≤ s.c.getD j 0))).map
        (fun j => (s.variable_names.getD j "", (0 : ℚ))) := rfl

theorem zc_orig_eq (s : PState) :
    (eliminate_zero_columns s).original_column_index =
      delAtAll s.original_column_index
        (((List.range (shapeCols s.A)).filter (fun j =>
          (colAt s.A j).all (fun x => decide (x = 0)))).filter (fun j =>
            decide (0 ≤ s.c.getD j 0))) := rfl

theorem zc_warnings_eq (s : PState) :
    (eliminate_zero_columns s).warnings = s.warnings +
      (((List.range (shapeCols s.A)).filter (fun j =>
        (colAt s.A j).all (fun x => decide (x = 0)))).filter (fun j =>
          decide (s.c.getD j 0 < 0))).length := rfl

/-- C9: for an all-zero column `j` of `A`, `eliminate_zero_columns` with
`c[j] ≥ 0` deletes the column, records its original index under
`eliminate_zero_columns.deleted_columns` and maps the variable's name to 0
in the journal's solution; with `c[j] < 0` it emits an unboundedness
warning; being a total function, it raises no exception in either case. -/
theorem C9_zero_columns (s : PState) (j : Nat)
    (horig : s.original_column_index.length = shapeCols s.A)
    (hnd : s.original_column_index.Nodup)
    (hj : j < shapeCols s.A)
    (hzero : (colAt s.A j).all (fun x => decide (x = 0)) = true) :
    (0 ≤ s.c.getD j 0 →
      s.original_column_index.getD j 0 ∈
        (eliminate_zero_columns s).journal.zeroColsDeletedColumns ∧
      (s.variable_names.getD j "", (0 : ℚ)) ∈
        (eliminate_zero_columns s).journal.zeroColsSolution ∧
      s.original_column_index.getD j 0 ∉
        (eliminate_zero_columns s).original_column_index) ∧
    (s.c.getD j 0 < 0 → s.warnings < (eliminate_zero_columns s).warnings) := by
  have hzmem : j ∈ (List.range (shapeCols s.A)).filter (fun r =>
      (colAt s.A r).all (fun x => decide (x = 0))) :=
    List.mem_filter.mpr ⟨List.mem_range.mpr hj, hzero⟩
  constructor
  · intro hc
    have htdmem : j ∈ ((List.range (shapeCols s.A)).filter (fun r =>
        (colAt s.A r).all (fun x => decide (x = 0)))).filter (fun r =>
          decide (0 ≤ s.c.getD r 0)) :=
      List.mem_filter.mpr ⟨hzmem, decide_eq_true hc⟩
    refine ⟨?_, ?_, ?_⟩
    · rw [zc_journal_eq]
      exact List.mem_map.mpr ⟨j, htdmem, rfl⟩
    · rw [zc_solution_eq]
      exact List.mem_map.mpr ⟨j, htdmem, rfl⟩
    · rw [zc_orig_eq]
      have hpw : (((List.range (shapeCols s.A)).filter (fun r =>
          (colAt s.A r).all (fun x => decide (x = 0)))).filter (fun r =>
            decide (0 ≤ s.c.getD r 0))).Pairwise (· < ·) :=
        (pairwise_lt_filter_range _ _).filter _
      rw [delAtAll_eq_npDelete _ hpw]
      intro hmem
      rcases (mem_npDelete_iff _ s.original_column_index _ 0).mp hmem with ⟨r, hrl, hrc, hre⟩
      have hrj : r = j := nodup_getD_inj hnd hrl (by omega) hre
      subst hrj
      rw [contains_true_of_mem htdmem] at hrc
      simp at hrc
  · intro hc
    have hwmem : j ∈ ((List.range (shapeCols s.A)).filter (fun r =>
        (colAt s.A r).all (fun x => decide (x = 0)))).filter (fun r =>
          decide (s.c.getD r 0 < 0)) :=
      List.mem_filter.mpr ⟨hzmem, decide_eq_true hc⟩
    have hlp : 0 < (((List.range (shapeCols s.A)).filter (fun r =>
        (colAt s.A r).all (fun x => decide (x = 0)))).filter (fun r =>
          decide (s.c.getD r 0 < 0))).length :=
      List.length_pos.mpr (List.ne_nil_of_mem hwmem)
    rw [zc_warnings_eq]
    omega

/-- C9 witness: spec scenario 3 (`A = [[0,1],[0,1]]`, `c = [5,2]`) at
column 0. -/
theorem C9_zero_columns_witness :
    (load_model_matrices
        { A := [[0, 1], [0, 1]], b := [1, 1], c := [5, 2], co := 0, lb := [0, 0],
          ub := [10, 10], of_sense := "minimize", cons_senses := [Sense.le, Sense.le],
          variable_names := ["x0", "x1"] }).original_column_index.getD 0 0 ∈
      (eliminate_zero_columns (load_model_matrices
        { A := [[0, 1], [0, 1]], b := [1, 1], c := [5, 2], co := 0, lb := [0, 0],
          ub := [10, 10], of_sense := "minimize", cons_senses := [Sense.le, Sense.le],
          variable_names := ["x0", "x1"] })).journal.zeroColsDeletedColumns :=
  ((C9_zero_columns (load_model_matrices
        { A := [[0, 1], [0, 1]], b := [1, 1], c := [5, 2], co := 0, lb := [0, 0],
          ub := [10, 10], of_sense := "minimize", cons_senses := [Sense.le, Sense.le],
          variable_names := ["x0", "x1"] }) 0 (by decide) (by decide) (by decide)
      (by decide)).1 (by decide)).1

theorem orchestrator_zeroRows_eq (dep : Detector) (fuel : Nat) (mi : MatrixInput) :
    orchestrator_presolve_operations dep cfgZeroRows fuel mi =
      some (eliminate_zero_rows (load_model_matrices mi)) := rfl

/-- C6 counterexample: with implied-bound and singleton-equality
elimination enabled, the first run on `miC6` substitutes `x0 = 2` and ends
with one row (`x1 ≤ -1`); re-running the orchestrator on that output
deletes the now-violated row through the implied-bound rule, ending with
zero rows and a nonempty `eliminate_implied_bounds.deleted_rows_indices`
addition — re-running is not a no-op. -/
theorem C6_counterexample :
    ((orchestrator_presolve_operations trivialDep cfgC6 10 miC6).getD emptyState).A.length = 1 ∧
    (orchestrator_presolve_operations trivialDep cfgC6 10 miC6).isSome = true ∧
    ((orchestrator_presolve_operations trivialDep cfgC6 10
      (rematerialize ((orchestrator_presolve_operations trivialDep cfgC6 10
        miC6).getD emptyState))).getD emptyState).A.length = 0 ∧
    (orchestrator_presolve_operations trivialDep cfgC6 10
      (rematerialize ((orchestrator_presolve_operations trivialDep cfgC6 10
        miC6).getD emptyState))).isSome = true ∧
    ((orchestrator_presolve_operations trivialDep cfgC6 10
      (rematerialize ((orchestrator_presolve_operations trivialDep cfgC6 10
        miC6).getD emptyState))).getD emptyState).journal.impliedBoundsDeletedRows = [0] := by
  decide

/-- C6 (amended): for the configuration enabling only zero-row
elimination, re-running the orchestrator on its own output is a no-op: the
second run deletes nothing (`A`, `b`, `cons_senses`, `variable_names`
unchanged, hence identical dimensions) and its journal addition
`eliminate_zero_rows.deleted_rows_indices` is empty. -/
theorem C6_zero_rows_fixed_point (dep : Detector) (fuel : Nat) (mi : MatrixInput)
    (hb : mi.b.length = mi.A.length) (s1 s2 : PState)
    (h1 : orchestrator_presolve_operations dep cfgZeroRows fuel mi = some s1)
    (h2 : orchestrator_presolve_operations dep cfgZeroRows fuel
      (rematerialize s1) = some s2) :
    s2.A = s1.A ∧ s2.b = s1.b ∧ s2.cons_senses = s1.cons_senses ∧
    s2.variable_names = s1.variable_names ∧
    s2.journal.zeroRowsDeletedRows = [] := by
  rw [orchestrator_zeroRows_eq] at h1 h2
  have hs1 : s1 = eliminate_zero_rows (load_model_matrices mi) := (Option.some.inj h1).symm
  subst hs1
  have hs2 : s2 = eliminate_zero_rows (load_model_matrices
      (rematerialize (eliminate_zero_rows (load_model_matrices mi)))) :=
    (Option.some.inj h2).symm
  subst hs2
  have hbL : (load_model_matrices mi).b.length = (load_model_matrices mi).A.length := hb
  have hempty := zeroRows_second_pass_empty hbL
  have hfeq : (List.range (shapeRows (load_model_matrices
      (rematerialize (eliminate_zero_rows (load_model_matrices mi)))).A)).filter
      (zeroRowDeletable (load_model_matrices
        (rematerialize (eliminate_zero_rows (load_model_matrices mi)))).A
        (load_model_matrices
          (rematerialize (eliminate_zero_rows (load_model_matrices mi)))).b) = [] := by
    exact hempty
  have hres := eliminate_zero_rows_no_deletable hfeq
  exact ⟨hres.1, hres.2.1, hres.2.2.1, rfl, hres.2.2.2.2⟩

/-- C6 witness: the amended statement on scenario 2's matrices
(`A = [[0,0],[1,1]]`, `b = [3,2]`). -/
theorem C6_zero_rows_fixed_point_witness :
    (eliminate_zero_rows (load_model_matrices (rematerialize (eliminate_zero_rows
        (load_model_matrices miC2))))).A =
      (eliminate_zero_rows (load_model_matrices miC2)).A ∧
    (eliminate_zero_rows (load_model_matrices (rematerialize (eliminate_zero_rows
        (load_model_matrices miC2))))).b =
      (eliminate_zero_rows (load_model_matrices miC2)).b ∧
    (eliminate_zero_rows (load_model_matrices (rematerialize (eliminate_zero_rows
        (load_model_matrices miC2))))).cons_senses =
      (eliminate_zero_rows (load_model_matrices miC2)).cons_senses ∧
    (eliminate_zero_rows (load_model_matrices (rematerialize (eliminate_zero_rows
        (load_model_matrices miC2))))).variable_names =
      (eliminate_zero_rows (load_model_matrices miC2)).variable_names ∧
    (eliminate_zero_rows (load_model_matrices (rematerialize (eliminate_zero_rows
        (load_model_matrices miC2))))).journal.zeroRowsDeletedRows = [] :=
  C6_zero_rows_fixed_point trivialDep 0 miC2 (by decide) _ _ rfl rfl

/-- C5 counterexample: only k-ton elimination (`k = 3`) enabled on `miC5`;
the operation table goes from 11 nonzeros at `"Initial"` to 12 after
`"Eliminate Kton Equalities"` — `nnz` increased across successive entries
through elimination fill-in, refuting the claim that it never increases
outside sparsification. -/
theorem C5_counterexample :
    ((orchestrator_presolve_operations trivialDep cfgC5 10 miC5).getD
        emptyState).operation_table =
      [("Initial", 7, 3, 11), ("Eliminate Kton Equalities", 6, 2, 12)] ∧
    (orchestrator_presolve_operations trivialDep cfgC5 10 miC5).isSome = true ∧
    ¬((12 : Nat) ≤ 11) := by
  decide

/-- C5 (amended): across successive operation-table entries of any
orchestrator run, `rows` and `cols` never increase, and `nnz` never
increases except possibly across an `"Eliminate Kton Equalities"` entry,
whose per-row elimination step can create fill-in (sparsification entries,
in particular, never raise `nnz`). -/
theorem C5_operation_table_monotonicity (dep : Detector) (cfg : Config) (fuel : Nat)
    (mi : MatrixInput) (s' : PState)
    (h : orchestrator_presolve_operations dep cfg fuel mi = some s') :
    List.Chain' entryStep s'.operation_table :=
  (tableOk_orchestrator h).1

/-- C5 witness: the amended statement on the `miC5` run. -/
theorem C5_operation_table_monotonicity_witness :
    List.Chain' entryStep
      ((orchestrator_presolve_operations trivialDep cfgC5 10 miC5).getD
        emptyState).operation_table :=
  C5_operation_table_monotonicity trivialDep cfgC5 10 miC5 _ (by decide)

theorem ite_some_push (c : Prop) [Decidable c] (f : PState → PState) (s : PState) :
    (if c then some (f s) else some s) = some (if c then f s else s) := by
  split <;> rfl

/-- C7: the orchestrator applies exactly the enabled rules in the spec's
fixed order (1) sparsification … (10) zero-column elimination and returns
the tuple `(A, b, c, lb, ub, of_sense, cons_senses, co, variable_names,
change_journal, operation_table)`: the transcription of the source equals
the rule sequence written out from the spec's §4.1 list, for every
configuration, detector, fuel and input. -/
theorem C7_orchestrator_order (dep : Detector) (cfg : Config) (fuel : Nat)
    (mi : MatrixInput) :
    run_presolve dep cfg fuel mi = orchestratorSpec dep cfg fuel mi := by
  unfold run_presolve orchestrator_presolve_operations orchestratorSpec specRuleSequence
    presolveOutput
  simp only [List.foldl_cons, List.foldl_nil, Option.some_bind, ite_some_push,
    Option.bind_assoc]

/-- C8: one k-ton elimination pass agrees, for every state and found
row/mate pair, with the spec's §4.7 step list (`ktonSpecStep`): pivot at
the row's last nonzero, scaling, elimination from the other rows and the
objective, pivot-column deletion, negation of the surviving row, mate
deletion, and the journal entry; and on the claim's concrete instance
(`miC8` with `k = 2`) the run removes column 1, leaves the surviving third
row as `-0.5·x0 + x2 ≤ 3`, and deletes the mate row. -/
theorem C8_kton_equalities :
    (∀ (s : PState) (i mate : Nat), ktonProcess s i mate = ktonSpecStep s i mate) ∧
    ((orchestrator_presolve_operations trivialDep cfgC8 10 miC8).getD emptyState).A =
      [[-(1 / 2 : ℚ), 0], [-(1 / 2 : ℚ), 1]] ∧
    ((orchestrator_presolve_operations trivialDep cfgC8 10 miC8).getD emptyState).b =
      [-2, 3] ∧
    ((orchestrator_presolve_operations trivialDep cfgC8 10 miC8).getD
        emptyState).variable_names = ["x0", "x2"] ∧
    ((orchestrator_presolve_operations trivialDep cfgC8 10 miC8).getD
        emptyState).original_column_index = [0, 2] ∧
    ((orchestrator_presolve_operations trivialDep cfgC8 10 miC8).getD
        emptyState).original_row_index = [0, 2] ∧
    ((orchestrator_presolve_operations trivialDep cfgC8 10 miC8).getD
        emptyState).journal.ktonEntries = [("x1", 1, [0, 1])] ∧
    (orchestrator_presolve_operations trivialDep cfgC8 10 miC8).isSome = true := by
  refine ⟨fun s i mate => rfl, ?_⟩
  decide

/-- C10: the engine never reads the values stored in `cons_senses` — for
any two states that agree everywhere except the sense entries (same
length), each of the ten rules, and the orchestrator under any
configuration, detector and fuel, produce results that again agree on
`A, b, c, co, lb, ub, variable_names`, both original-index maps, the
change journal, the operation table and the warnings; the sense vector is
only shortened in parallel with row deletions. -/
theorem C10_sense_noninterference :
    (∀ s t : PState, agreesExceptSenses s t →
      agreesExceptSenses (eliminate_zero_rows s) (eliminate_zero_rows t)) ∧
    (∀ s t : PState, agreesExceptSenses s t →
      agreesExceptSenses (eliminate_zero_columns s) (eliminate_zero_columns t)) ∧
    (∀ s t : PState, agreesExceptSenses s t →
      agreesExceptSenses (eliminate_singleton_inequalities s)
        (eliminate_singleton_inequalities t)) ∧
    (∀ s t : PState, agreesExceptSenses s t →
      agreesExceptSenses (eliminate_dual_singleton_inequalities s)
        (eliminate_dual_singleton_inequalities t)) ∧
    (∀ s t : PState, agreesExceptSenses s t →
      agreesExceptSenses (eliminate_redundant_columns s) (eliminate_redundant_columns t)) ∧
    (∀ s t : PState, agreesExceptSenses s t →
      agreesExceptSenses (eliminate_implied_bounds s) (eliminate_implied_bounds t)) ∧
    (∀ (dep : Detector) (s t : PState), agreesExceptSenses s t →
      agreesExceptSenses (eliminate_redundant_rows dep s) (eliminate_redundant_rows dep t)) ∧
    (∀ s t : PState, agreesExceptSenses s t →
      agreesExceptSenses (reduction_small_coefficients s) (reduction_small_coefficients t)) ∧
    (∀ (s t : PState) (n : Nat), agreesExceptSenses s t →
      optionAgrees (eliminate_singleton_equalities n s) (eliminate_singleton_equalities n t)) ∧
    (∀ (s t : PState) (k n : Nat), agreesExceptSenses s t →
      optionAgrees (eliminate_kton_equalities k n s) (eliminate_kton_equalities k n t)) ∧
    (∀ (dep : Detector) (cfg : Config) (fuel : Nat) (mi1 mi2 : MatrixInput),
      miAgrees mi1 mi2 →
      optionAgrees (orchestrator_presolve_operations dep cfg fuel mi1)
        (orchestrator_presolve_operations dep cfg fuel mi2)) :=
  ⟨fun _ _ h => agrees_eliminate_zero_rows h,
    fun _ _ h => agrees_eliminate_zero_columns h,
    fun _ _ h => agrees_eliminate_singleton_inequalities h,
    fun _ _ h => agrees_eliminate_dual_singleton_inequalities h,
    fun _ _ h => agrees_eliminate_redundant_columns h,
    fun _ _ h => agrees_eliminate_implied_bounds h,
    fun _ _ _ h => agrees_eliminate_redundant_rows h,
    fun _ _ h => agrees_reduction_small_coefficients h,
    fun _ _ n h => agrees_eliminate_singleton_equalities h n,
    fun _ _ k n h => agrees_eliminate_kton_equalities h k n,
    fun _ _ _ _ _ h => agrees_orchestrator h⟩

/-- C10 witness: two copies of scenario 2's input differing only in the
stored senses (`[≤, ≤]` against `[≥, =]`) are indistinguishable to a full
orchestrator run. -/
theorem C10_sense_noninterference_witness :
    optionAgrees
      (orchestrator_presolve_operations trivialDep cfgC6 10 miC2)
      (orchestrator_presolve_operations trivialDep cfgC6 10
        { miC2 with cons_senses := [Sense.ge, Sense.eqs] }) :=
  C10_sense_noninterference.2.2.2.2.2.2.2.2.2.2 trivialDep cfgC6 10 miC2
    { miC2 with cons_senses := [Sense.ge, Sense.eqs] }
    ⟨rfl, rfl, rfl, rfl, rfl, rfl, rfl, rfl, rfl⟩
